import Mathlib

/-!
Verification of the jsrmx core (I/O abstraction + streaming transform engine).

The Rust sources are shallowly embedded:
* `serde_json::Value` becomes the inductive `Json`; serde's `Map<String, Value>`
  is a `BTreeMap`, so objects built by serde (parsing, `collect`, `insert`) keep
  their keys strictly sorted — `insertKV` models `Map::insert` and the predicate
  `Json.wf` captures that invariant.  Numbers are modelled as integers;
  floating-point rows are outside the scope of every claim checked here.
* serde's compact serializer (`Value::to_string`) becomes `serVal`, and
  `serde_json::from_str` becomes `jsonFromStr`: a fuel-indexed recursive-descent
  parser returning `Except JErr`, with `JErr.eof` modelling the
  "unexpected end of input" class that `serde_json::Error::is_eof` tests
  (the loops in `src/ndjson.rs` and `src/processor/ndjson.rs` branch on it).
* `src/processor/json_field.rs` (`JsonField`), `src/processor/json.rs`
  (`merge`/`split`), `src/processor/ndjson.rs` (`name_entry`, the unbundle
  loop, `dots_to_slashes`), `src/ndjson.rs` (`bundle`,
  `read_directory_to_output`), `src/output.rs` (`write_entries`,
  `FromStr for Output`) and `src/input/file.rs`
  (`read_entries_from_directory`) are translated one definition per function.
* The filesystem is a pure association list from file name to stored document;
  directory iteration order and rayon's `par_drain` fan-out are modelled by
  quantifying over permutations.
-/

/-- Model of `serde_json::Value`.  Numbers are modelled as integers (`i64`/`u64`
rows); objects carry their field list, which serde keeps sorted by key. -/
inductive Json where
  | null : Json
  | bool : Bool → Json
  | num : Int → Json
  | str : String → Json
  | arr : List Json → Json
  | obj : List (String × Json) → Json

/-- Induction for `Json` giving the inductive hypothesis at every element of an
array and every field value of an object. -/
theorem Json.induct (motive : Json → Prop)
    (hnull : motive .null) (hbool : ∀ b, motive (.bool b))
    (hnum : ∀ n, motive (.num n)) (hstr : ∀ s, motive (.str s))
    (harr : ∀ xs, (∀ x ∈ xs, motive x) → motive (.arr xs))
    (hobj : ∀ kvs, (∀ kv ∈ kvs, motive kv.2) → motive (.obj kvs)) :
    ∀ v, motive v := by
  have key : ∀ n v, sizeOf v ≤ n → motive v := by
    intro n
    induction n with
    | zero => intro v hv; cases v <;> simp_arith at hv
    | succ n ih =>
      intro v hv
      cases v with
      | null => exact hnull
      | bool b => exact hbool b
      | num i => exact hnum i
      | str s => exact hstr s
      | arr xs =>
        refine harr xs (fun x hx => ih x ?_)
        have := List.sizeOf_lt_of_mem hx
        simp only [Json.arr.sizeOf_spec] at hv
        omega
      | obj kvs =>
        refine hobj kvs (fun kv hkv => ih kv.2 ?_)
        have h1 := List.sizeOf_lt_of_mem hkv
        have h2 : sizeOf kv.2 < sizeOf kv := by
          obtain ⟨k, v⟩ := kv
          simp_arith
        simp only [Json.obj.sizeOf_spec] at hv
        omega
  exact fun v => key (sizeOf v) v le_rfl

/-! ## Decimal digits

`natToChars` renders a natural number the way Rust's integer `Display` does;
`digitsToNat` is the accumulating fold the parser uses to read a digit run. -/

/-- The character for one decimal digit. -/
def digitChar (d : Nat) : Char := Char.ofNat (48 + d)

/-- Decimal digits of `n`, most significant first, by fuel-bounded division
(kernel-reducible, unlike `Nat.digits`). -/
def natToCharsAux : Nat → Nat → List Char
  | 0, _ => []
  | fuel + 1, n =>
    if n = 0 then [] else natToCharsAux fuel (n / 10) ++ [digitChar (n % 10)]

/-- Decimal rendering of a natural number, most significant digit first. -/
def natToChars (n : Nat) : List Char :=
  if n = 0 then ['0'] else natToCharsAux n n

theorem natToCharsAux_eq_digits :
    ∀ fuel n, n ≤ fuel → natToCharsAux fuel n = (Nat.digits 10 n).reverse.map digitChar := by
  intro fuel
  induction fuel with
  | zero =>
    intro n hn
    interval_cases n
    simp [natToCharsAux]
  | succ fuel ih =>
    intro n hn
    by_cases h : n = 0
    · subst h; simp [natToCharsAux]
    · have hdiv : n / 10 ≤ fuel := by
        have : n / 10 < n := Nat.div_lt_self (Nat.pos_of_ne_zero h) (by norm_num)
        omega
      rw [natToCharsAux, if_neg h, ih _ hdiv,
        Nat.digits_def' (by norm_num : (1:ℕ) < 10) (Nat.pos_of_ne_zero h)]
      simp

/-- `natToChars` agrees with the `Nat.digits`-based specification. -/
theorem natToChars_eq_digits (n : Nat) :
    natToChars n = if n = 0 then ['0'] else (Nat.digits 10 n).reverse.map digitChar := by
  by_cases h : n = 0
  · subst h; rfl
  · simp only [natToChars, if_neg h, natToCharsAux_eq_digits n n le_rfl]

/-- Numeric value of one decimal digit character. -/
def charDigit (c : Char) : Nat := c.toNat - 48

/-- Accumulate a digit run into a natural number, most significant first. -/
def digitsToNat (ds : List Char) : Nat :=
  ds.foldl (fun a c => a * 10 + charDigit c) 0

theorem digitChar_toNat {d : Nat} (hd : d < 10) : (digitChar d).toNat = 48 + d := by
  interval_cases d <;> decide

theorem digitChar_isDigit {d : Nat} (hd : d < 10) : (digitChar d).isDigit = true := by
  interval_cases d <;> decide

theorem foldl_digitChar (l : List Nat) (hl : ∀ d ∈ l, d < 10) (a : Nat) :
    (l.reverse.map digitChar).foldl (fun a c => a * 10 + charDigit c) a =
      a * 10 ^ l.length + Nat.ofDigits 10 l := by
  induction l generalizing a with
  | nil => simp
  | cons d t ih =>
    have hd : d < 10 := hl d (by simp)
    simp only [List.reverse_cons, List.map_append, List.foldl_append, List.map_cons,
      List.map_nil, List.foldl_cons, List.foldl_nil, Nat.ofDigits_cons, List.length_cons]
    rw [ih (fun x hx => hl x (by simp [hx])) a]
    have : charDigit (digitChar d) = d := by
      simp [charDigit, digitChar_toNat hd]
    rw [this]
    ring

/-- Reading back a rendered natural number returns it. -/
theorem digitsToNat_natToChars (n : Nat) : digitsToNat (natToChars n) = n := by
  by_cases h : n = 0
  · subst h; decide
  · have hlt : ∀ d ∈ Nat.digits 10 n, d < 10 :=
      fun d hd => Nat.digits_lt_base (by norm_num) hd
    rw [natToChars_eq_digits]
    simp only [if_neg h, digitsToNat]
    rw [foldl_digitChar _ hlt 0]
    simp [Nat.ofDigits_digits]

/-- Every character of a rendered natural number is a decimal digit. -/
theorem natToChars_isDigit (n : Nat) : ∀ c ∈ natToChars n, c.isDigit = true := by
  intro c hc
  rw [natToChars_eq_digits] at hc
  by_cases h : n = 0
  · subst h; simp at hc; subst hc; decide
  · simp only [if_neg h, List.mem_map, List.mem_reverse] at hc
    obtain ⟨d, hd, rfl⟩ := hc
    exact digitChar_isDigit (Nat.digits_lt_base (by norm_num) hd)

theorem natToChars_ne_nil (n : Nat) : natToChars n ≠ [] := by
  rw [natToChars_eq_digits]
  by_cases h : n = 0
  · subst h; decide
  · simp only [if_neg h]
    intro hcon
    have hne : Nat.digits 10 n ≠ [] := Nat.digits_ne_nil_iff_ne_zero.mpr h
    simp at hcon
    exact hne hcon

/-! ## Compact serialization (`serde_json::Value::to_string`)

serde escapes `"` and `\` with a backslash, the common control characters with
their short forms, and the remaining control characters as `\u00XX`; every
other character is emitted as itself. -/

/-- Lower-case hexadecimal digit. -/
def hexChar (d : Nat) : Char :=
  if d < 10 then Char.ofNat (48 + d) else Char.ofNat (87 + d)

/-- How serde's compact serializer escapes one character of a JSON string. -/
def jsonEscChar (c : Char) : List Char :=
  if c = '"' then ['\\', '"']
  else if c = '\\' then ['\\', '\\']
  else if c = Char.ofNat 8 then ['\\', 'b']
  else if c = Char.ofNat 9 then ['\\', 't']
  else if c = Char.ofNat 10 then ['\\', 'n']
  else if c = Char.ofNat 12 then ['\\', 'f']
  else if c = Char.ofNat 13 then ['\\', 'r']
  else if c.toNat < 32 then
    ['\\', 'u', '0', '0', hexChar (c.toNat / 16), hexChar (c.toNat % 16)]
  else [c]

/-- Serialized form of a JSON string, including the delimiting quotes. -/
def serString (s : String) : List Char :=
  '"' :: s.data.flatMap jsonEscChar ++ ['"']

/-- Serialized form of an integer (Rust's `Display` for `i64`/`u64`). -/
def serInt (i : Int) : List Char :=
  if i < 0 then '-' :: natToChars i.natAbs else natToChars i.toNat

mutual

/-- Compact serialization of a JSON value (`serde_json::Value::to_string`);
objects are emitted in stored (= BTreeMap, key-sorted) order. -/
def serVal : Json → List Char
  | .null => "null".data
  | .bool true => "true".data
  | .bool false => "false".data
  | .num i => serInt i
  | .str s => serString s
  | .arr xs => '[' :: serElems xs ++ [']']
  | .obj kvs => '{' :: serMembers kvs ++ ['}']

/-- Comma-separated serialization of array elements. -/
def serElems : List Json → List Char
  | [] => []
  | [x] => serVal x
  | x :: xs => serVal x ++ ',' :: serElems xs

/-- Comma-separated serialization of object members. -/
def serMembers : List (String × Json) → List Char
  | [] => []
  | [(k, v)] => serString k ++ ':' :: serVal v
  | (k, v) :: kvs => serString k ++ ':' :: serVal v ++ ',' :: serMembers kvs

end

/-- The whole document as a Lean string (`Value::to_string`). -/
def Json.toStringRust (v : Json) : String := String.mk (serVal v)

/-- Lexicographic order on character lists by codepoint. -/
def charsLt : List Char → List Char → Bool
  | [], [] => false
  | [], _ :: _ => true
  | _ :: _, [] => false
  | a :: as, b :: bs =>
    if a.toNat < b.toNat then true
    else if b.toNat < a.toNat then false
    else charsLt as bs

/-- `String`'s `Ord` in Rust (and Lean's `<` on strings): lexicographic. -/
def strLt (a b : String) : Bool := charsLt a.data b.data

/-! ## Well-formed values

`SafeStr` marks the strings whose serialized form contains no `\"`
two-character pattern: no quote character anywhere (a quote serializes to
`\"` outright) and no backslash as the last character (a final backslash
serializes to `\\` directly before the closing delimiter quote, again
producing `\"`).  `Json.wf` states that every string scalar and every object
key is safe, and that every object's key list is strictly sorted — the
invariant serde's `BTreeMap`-backed `Value::Object` maintains. -/

/-- A character the serializer emits unchanged: not a quote, not a backslash,
not a control character. -/
def PlainChar (c : Char) : Bool :=
  !(c = '"') && !(c = '\\') && decide (32 ≤ c.toNat)

/-- Whether a character list ends in a backslash. -/
def lastIsBslash : List Char → Bool
  | [] => false
  | [c] => c = '\\'
  | _ :: c :: cs => lastIsBslash (c :: cs)

/-- A string free of quote characters that does not end in a backslash: its
serialization contains no `\"` pattern. -/
def SafeStr (s : String) : Bool :=
  s.data.all (fun c => !(c = '"')) && !(lastIsBslash s.data)

mutual

/-- Strings are safe and object keys are strictly sorted (serde's `BTreeMap`
invariant). -/
def Json.wf : Json → Bool
  | .null => true
  | .bool _ => true
  | .num _ => true
  | .str s => SafeStr s
  | .arr xs => wfList xs
  | .obj kvs => wfMembers kvs

/-- `Json.wf` at every element. -/
def wfList : List Json → Bool
  | [] => true
  | x :: xs => Json.wf x && wfList xs

/-- Safe sorted keys, `Json.wf` values. -/
def wfMembers : List (String × Json) → Bool
  | [] => true
  | [(k, v)] => SafeStr k && Json.wf v
  | (k, v) :: (k', v') :: kvs =>
    SafeStr k && Json.wf v && strLt k k' && wfMembers ((k', v') :: kvs)

end

/-! ## The sorted association list behind `serde_json::Map`

Rust's `BTreeMap<String, _>` orders keys by `String`'s `Ord`: lexicographic on
the UTF-8 bytes, which coincides with lexicographic codepoint order.  `strLt`
is that order as a kernel-reducible boolean. -/

/-- Insert into a key-sorted association list, replacing an existing binding:
`serde_json::Map::insert` (a `BTreeMap` with string keys). -/
def insertKV : List (String × Json) → String → Json → List (String × Json)
  | [], k, v => [(k, v)]
  | (k', v') :: rest, k, v =>
    if strLt k k' then (k, v) :: (k', v') :: rest
    else if k = k' then (k, v) :: rest
    else (k', v') :: insertKV rest k v

/-- First-match association lookup (`BTreeMap::get` on a sorted list). -/
def lookupKV : List (String × Json) → String → Option Json
  | [], _ => none
  | (k', v') :: rest, k => if k = k' then some v' else lookupKV rest k

/-- Keys are strictly ascending (hence distinct). -/
def SortedKeys (kvs : List (String × Json)) : Prop :=
  List.Pairwise (fun a b => strLt a.1 b.1 = true) kvs

/-- `serde_json::Map::from_iter` / `Value::collect`: successive `insert`s into
an empty map, so later duplicates win. -/
def collectObj (entries : List (String × Json)) : Json :=
  .obj (entries.foldl (fun acc kv => insertKV acc kv.1 kv.2) [])

/-! ## Parsing (`serde_json::from_str`)

A recursive-descent parser over the character list.  `JErr.eof` is the class of
errors `serde_json::Error::is_eof` reports: the input ran out where more bytes
were required.  Any other failure is `JErr.other`.  The recursion is structural
on a fuel argument; `jsonFromStr` supplies `length + 1` fuel, which
`fuelVal_le_serLen` below shows is always enough for serialized output.
Restrictions of the model: numbers are the integer forms (no fraction or
exponent part, and leading zeros are not rejected) — no checked claim involves
floating-point rows. -/

/-- Parse error class; `eof` is serde's "unexpected end of input". -/
inductive JErr where
  | eof : JErr
  | other : JErr
deriving DecidableEq

/-- JSON insignificant whitespace. -/
def isWs (c : Char) : Bool := c = ' ' || c = '\t' || c = '\n' || c = '\r'

/-- Drop leading whitespace. -/
def skipWs : List Char → List Char
  | [] => []
  | c :: cs => if isWs c then skipWs cs else c :: cs

/-- Value of a hexadecimal digit character. -/
def hexVal (c : Char) : Option Nat :=
  if 48 ≤ c.toNat ∧ c.toNat ≤ 57 then some (c.toNat - 48)
  else if 97 ≤ c.toNat ∧ c.toNat ≤ 102 then some (c.toNat - 87)
  else if 65 ≤ c.toNat ∧ c.toNat ≤ 70 then some (c.toNat - 55)
  else none

/-- The character a short escape `\x` denotes. -/
def escCharOf : Char → Option Char
  | '"' => some '"'
  | '\\' => some '\\'
  | '/' => some '/'
  | 'b' => some (Char.ofNat 8)
  | 'f' => some (Char.ofNat 12)
  | 'n' => some (Char.ofNat 10)
  | 'r' => some (Char.ofNat 13)
  | 't' => some (Char.ofNat 9)
  | _ => none

/-- Parse the body of a string literal after the opening quote, returning the
decoded characters and the input after the closing quote.  Running out of input
inside the literal is an `eof` failure. -/
def parseStringBody : List Char → Except JErr (List Char × List Char)
  | [] => .error .eof
  | c :: cs =>
    if c = '"' then .ok ([], cs)
    else if c = '\\' then
      match cs with
      | [] => .error .eof
      | e :: cs' =>
        if e = 'u' then
          match cs' with
          | h1 :: h2 :: h3 :: h4 :: cs'' =>
            match hexVal h1, hexVal h2, hexVal h3, hexVal h4 with
            | some a, some b, some c2, some d =>
              match parseStringBody cs'' with
              | .ok (content, rest) =>
                .ok (Char.ofNat (((a * 16 + b) * 16 + c2) * 16 + d) :: content, rest)
              | .error er => .error er
            | _, _, _, _ => .error .other
          | _ => .error .eof
        else
          match escCharOf e with
          | some d =>
            match parseStringBody cs' with
            | .ok (content, rest) => .ok (d :: content, rest)
            | .error er => .error er
          | none => .error .other
    else
      match parseStringBody cs with
      | .ok (content, rest) => .ok (c :: content, rest)
      | .error e => .error e

/-- Match an expected keyword tail (`ull`, `rue`, `alse`). -/
def parseIdent (expected : List Char) (v : Json) (cs : List Char) :
    Except JErr (Json × List Char) :=
  match expected, cs with
  | [], rest => .ok (v, rest)
  | _ :: _, [] => .error .eof
  | e :: es, c :: cs' => if c = e then parseIdent es v cs' else .error .other

/-- Parse the digit run of an integer after an optional minus sign. -/
def parseNumRest (neg : Bool) (cs : List Char) : Except JErr (Json × List Char) :=
  match cs with
  | [] => .error .eof
  | c :: _ =>
    if c.isDigit then
      let n : Int := Int.ofNat (digitsToNat (cs.takeWhile Char.isDigit))
      .ok (.num (if neg then -n else n), cs.dropWhile Char.isDigit)
    else .error .other

/-- The parser's continuation: a top-level value, the remaining elements of an
array, or the remaining members of an object (with the accumulator built so
far; members accumulate through `insertKV`, serde's `Map::insert`). -/
inductive PMode where
  | top : PMode
  | elems : List Json → PMode
  | membs : List (String × Json) → PMode

/-- The recursive-descent parser, structural on fuel. -/
def parseF : Nat → PMode → List Char → Except JErr (Json × List Char)
  | 0, _, _ => .error .other
  | n + 1, .top, cs =>
    match skipWs cs with
    | [] => .error .eof
    | c :: cs' =>
      if c = 'n' then parseIdent ['u', 'l', 'l'] .null cs'
      else if c = 't' then parseIdent ['r', 'u', 'e'] (.bool true) cs'
      else if c = 'f' then parseIdent ['a', 'l', 's', 'e'] (.bool false) cs'
      else if c = '"' then
        match parseStringBody cs' with
        | .ok (content, rest) => .ok (.str (String.mk content), rest)
        | .error e => .error e
      else if c = '-' then parseNumRest true cs'
      else if c = '[' then
        match skipWs cs' with
        | c2 :: rest => if c2 = ']' then .ok (.arr [], rest) else parseF n (.elems []) cs'
        | [] => parseF n (.elems []) cs'
      else if c = '{' then
        match skipWs cs' with
        | c2 :: rest => if c2 = '}' then .ok (.obj [], rest) else parseF n (.membs []) cs'
        | [] => parseF n (.membs []) cs'
      else if c.isDigit then parseNumRest false (c :: cs')
      else .error .other
  | n + 1, .elems acc, cs =>
    match parseF n .top cs with
    | .error e => .error e
    | .ok (v, rest) =>
      match skipWs rest with
      | [] => .error .eof
      | c :: rest' =>
        if c = ',' then parseF n (.elems (acc ++ [v])) rest'
        else if c = ']' then .ok (.arr (acc ++ [v]), rest')
        else .error .other
  | n + 1, .membs acc, cs =>
    match skipWs cs with
    | [] => .error .eof
    | c :: cs' =>
      if c = '"' then
        match parseStringBody cs' with
        | .error e => .error e
        | .ok (key, rest) =>
          match skipWs rest with
          | [] => .error .eof
          | c2 :: rest' =>
            if c2 = ':' then
              match parseF n .top rest' with
              | .error e => .error e
              | .ok (v, rest2) =>
                let acc' := insertKV acc (String.mk key) v
                match skipWs rest2 with
                | [] => .error .eof
                | c3 :: rest3 =>
                  if c3 = ',' then parseF n (.membs acc') rest3
                  else if c3 = '}' then .ok (.obj acc', rest3)
                  else .error .other
            else .error .other
      else .error .other

/-- `serde_json::from_str::<Value>`: parse one document, allowing trailing
whitespace only. -/
def jsonFromStr (s : String) : Except JErr Json :=
  match parseF (s.length + 1) .top s.data with
  | .error e => .error e
  | .ok (v, rest) =>
    match skipWs rest with
    | [] => .ok v
    | _ => .error .other

/-! ## Field codec (`src/processor/json_field.rs`) -/

/-- Leftmost non-overlapping replacement of `\"` by `"`:
Rust's `string.replace("\\\"", "\"")` in `JsonField::unescape`. -/
def replaceEscQuote : List Char → List Char
  | [] => []
  | [c] => [c]
  | c :: d :: cs =>
    if c = '\\' ∧ d = '"' then '"' :: replaceEscQuote cs
    else c :: replaceEscQuote (d :: cs)

/-- `enum JsonField { String(String), Value(Value) }`. -/
inductive JsonField where
  | string : String → JsonField
  | value : Json → JsonField

/-- `impl From<Value> for JsonField`: strings take the `String` arm, everything
else the `Value` arm. -/
def JsonField.ofJson : Json → JsonField
  | .str s => .string s
  | v => .value v

/-- `JsonField::escape`: a string is wrapped unchanged, any other value is
replaced by its compact serialization as a JSON string. -/
def JsonField.escape : JsonField → Json
  | .string s => .str s
  | .value v => .str (String.mk (serVal v))

/-- `JsonField::unescape`: a string is parsed back to JSON after rewriting
`\"` to `"`, defaulting to null on parse failure; other values pass through. -/
def JsonField.unescape : JsonField → Json
  | .string s =>
    match jsonFromStr (String.mk (replaceEscQuote s.data)) with
    | .ok v => v
    | .error _ => .null
  | .value v => v

/-- Applying the codec's escape at a field holding `v`
(`JsonField::from(value.clone()).escape()` in `NdjsonBundler`). -/
def escapeValue (v : Json) : Json := (JsonField.ofJson v).escape

/-- Applying the codec's unescape at a field holding `v`
(`JsonField::from(value.clone()).unescape()` in `NdjsonUnbundler`). -/
def unescapeValue (v : Json) : Json := (JsonField.ofJson v).unescape

/-! ## Order facts for `strLt` -/

theorem Char.toNat_inj_of_eq {a b : Char} (h : a.toNat = b.toNat) : a = b :=
  Char.ext (UInt32.ext h)

theorem charsLt_irrefl : ∀ l, charsLt l l = false := by
  intro l
  induction l with
  | nil => rfl
  | cons c t ih => simp [charsLt, ih]

theorem charsLt_trans :
    ∀ a b c, charsLt a b = true → charsLt b c = true → charsLt a c = true := by
  intro a
  induction a with
  | nil =>
    intro b c hab hbc
    cases b with
    | nil => simp [charsLt] at hab
    | cons y ys =>
      cases c with
      | nil => simp [charsLt] at hbc
      | cons z zs => rfl
  | cons x xs ih =>
    intro b c hab hbc
    cases b with
    | nil => simp [charsLt] at hab
    | cons y ys =>
      cases c with
      | nil => simp [charsLt] at hbc
      | cons z zs =>
        simp only [charsLt] at hab hbc ⊢
        by_cases hxy : x.toNat < y.toNat
        · by_cases hyz : y.toNat < z.toNat
          · simp [show x.toNat < z.toNat by omega]
          · simp only [if_pos hxy] at hab
            simp only [if_neg hyz] at hbc
            by_cases hzy : z.toNat < y.toNat
            · simp [hzy] at hbc
            · have : y.toNat = z.toNat := by omega
              simp [show x.toNat < z.toNat by omega]
        · simp only [if_neg hxy] at hab
          by_cases hyx : y.toNat < x.toNat
          · simp [hyx] at hab
          · have hxyeq : x.toNat = y.toNat := by omega
            simp only [if_neg (by omega : ¬ y.toNat < x.toNat)] at hab
            by_cases hyz : y.toNat < z.toNat
            · simp [show x.toNat < z.toNat by omega]
            · simp only [if_neg hyz] at hbc
              by_cases hzy : z.toNat < y.toNat
              · simp [hzy] at hbc
              · have : y.toNat = z.toNat := by omega
                simp only [if_neg hzy] at hbc
                simp only [if_neg (by omega : ¬ x.toNat < z.toNat),
                  if_neg (by omega : ¬ z.toNat < x.toNat)]
                exact ih ys zs hab hbc

theorem charsLt_connex :
    ∀ a b, charsLt a b = false → charsLt b a = false → a = b := by
  intro a
  induction a with
  | nil =>
    intro b hab _
    cases b with
    | nil => rfl
    | cons y ys => simp [charsLt] at hab
  | cons x xs ih =>
    intro b hab hba
    cases b with
    | nil => simp [charsLt] at hba
    | cons y ys =>
      simp only [charsLt] at hab hba
      by_cases hxy : x.toNat < y.toNat
      · simp [hxy] at hab
      · by_cases hyx : y.toNat < x.toNat
        · simp [hyx] at hba
        · have hxyeq : x = y := Char.toNat_inj_of_eq (by omega)
          subst hxyeq
          simp only [if_neg hxy, if_neg hyx] at hab hba
          rw [ih ys hab hba]

theorem strLt_irrefl (a : String) : strLt a a = false := charsLt_irrefl a.data

theorem strLt_trans {a b c : String} (hab : strLt a b = true) (hbc : strLt b c = true) :
    strLt a c = true := charsLt_trans a.data b.data c.data hab hbc

theorem strLt_connex {a b : String} (hab : strLt a b = false) (hba : strLt b a = false) :
    a = b := by
  have h := charsLt_connex a.data b.data hab hba
  cases a; cases b; exact congrArg String.mk h

theorem strLt_asymm {a b : String} (hab : strLt a b = true) : strLt b a = false := by
  by_contra h
  have hba : strLt b a = true := by
    cases hh : strLt b a
    · exact absurd hh h
    · rfl
  have := strLt_trans hab hba
  rw [strLt_irrefl] at this
  exact Bool.false_ne_true this

/-! ## Fuel bounds for the parser -/

/-- A tail that cannot extend a just-parsed number: empty or starting with a
non-digit. -/
def numSafe : List Char → Bool
  | [] => true
  | c :: _ => !c.isDigit

mutual

/-- Fuel sufficient for `parseF` to parse this value's serialization. -/
def fuelVal : Json → Nat
  | .null => 1
  | .bool _ => 1
  | .num _ => 1
  | .str _ => 1
  | .arr xs => 1 + fuelElems xs
  | .obj kvs => 1 + fuelMembers kvs

/-- Fuel sufficient to parse the remaining array elements. -/
def fuelElems : List Json → Nat
  | [] => 0
  | x :: xs => 1 + max (fuelVal x) (fuelElems xs)

/-- Fuel sufficient to parse the remaining object members. -/
def fuelMembers : List (String × Json) → Nat
  | [] => 0
  | (_, v) :: kvs => 1 + max (fuelVal v) (fuelMembers kvs)

end

/-! ## Character classification helpers -/

theorem skipWs_cons {c : Char} (l : List Char) (h : isWs c = false) :
    skipWs (c :: l) = c :: l := by
  simp [skipWs, h]

theorem isDigit_bounds {c : Char} (h : c.isDigit = true) :
    48 ≤ c.toNat ∧ c.toNat ≤ 57 := by
  simp [Char.isDigit] at h
  exact h

theorem digit_head_facts {c : Char} (h : c.isDigit = true) :
    isWs c = false ∧ c ≠ 'n' ∧ c ≠ 't' ∧ c ≠ 'f' ∧ c ≠ '"' ∧ c ≠ '-' ∧
      c ≠ '[' ∧ c ≠ '{' ∧ c ≠ ']' ∧ c ≠ '}' := by
  obtain ⟨h1, h2⟩ := isDigit_bounds h
  refine ⟨?_, ?_, ?_, ?_, ?_, ?_, ?_, ?_, ?_, ?_⟩
  · simp only [isWs]
    have hsp : c ≠ ' ' := fun e => absurd (e ▸ h1) (by decide)
    have ht : c ≠ '\t' := fun e => absurd (e ▸ h1) (by decide)
    have hn : c ≠ '\n' := fun e => absurd (e ▸ h1) (by decide)
    have hr : c ≠ '\r' := fun e => absurd (e ▸ h1) (by decide)
    simp [hsp, ht, hn, hr]
  · exact fun e => absurd (e ▸ h2) (by decide)
  · exact fun e => absurd (e ▸ h2) (by decide)
  · exact fun e => absurd (e ▸ h2) (by decide)
  · exact fun e => absurd (e ▸ h1) (by decide)
  · exact fun e => absurd (e ▸ h1) (by decide)
  · exact fun e => absurd (e ▸ h2) (by decide)
  · exact fun e => absurd (e ▸ h2) (by decide)
  · exact fun e => absurd (e ▸ h2) (by decide)
  · exact fun e => absurd (e ▸ h2) (by decide)

theorem plainChar_facts {c : Char} (h : PlainChar c = true) :
    c ≠ '"' ∧ c ≠ '\\' ∧ 32 ≤ c.toNat := by
  simp [PlainChar] at h
  exact ⟨h.1.1, h.1.2, h.2⟩

/-- A plain character serializes to itself. -/
theorem jsonEscChar_plain {c : Char} (h : PlainChar c = true) : jsonEscChar c = [c] := by
  obtain ⟨hq, hb, hge⟩ := plainChar_facts h
  have e8 : c ≠ Char.ofNat 8 := fun e => absurd (e ▸ hge) (by decide)
  have e9 : c ≠ Char.ofNat 9 := fun e => absurd (e ▸ hge) (by decide)
  have e10 : c ≠ Char.ofNat 10 := fun e => absurd (e ▸ hge) (by decide)
  have e12 : c ≠ Char.ofNat 12 := fun e => absurd (e ▸ hge) (by decide)
  have e13 : c ≠ Char.ofNat 13 := fun e => absurd (e ▸ hge) (by decide)
  simp only [jsonEscChar, if_neg hq, if_neg hb, if_neg e8, if_neg e9, if_neg e10,
    if_neg e12, if_neg e13, if_neg (by omega : ¬ c.toNat < 32)]

/-- Unpacking `SafeStr`: no quote anywhere, no final backslash. -/
theorem safeStr_facts {s : String} (h : SafeStr s = true) :
    (∀ c ∈ s.data, c ≠ '"') ∧ lastIsBslash s.data = false := by
  have hs : (s.data.all (fun c => !(c = '"')) && !(lastIsBslash s.data)) = true := h
  simp only [Bool.and_eq_true, List.all_eq_true, Bool.not_eq_true'] at hs
  refine ⟨fun c hc => ?_, hs.2⟩
  have := hs.1 c hc
  simpa using this

/-- `hexVal` decodes what `hexChar` encodes. -/
theorem hexVal_hexChar {d : Nat} (hd : d < 16) : hexVal (hexChar d) = some d := by
  interval_cases d <;> decide

/-- Parsing an escaped string body decodes every escape the serializer emits
and stops at the closing quote.  Quote characters are excluded only because
the serializer never leaves a raw quote inside the body. -/
theorem parseStringBody_esc {l : List Char} (h : ∀ c ∈ l, c ≠ '"')
    (rest : List Char) :
    parseStringBody (l.flatMap jsonEscChar ++ '"' :: rest) = .ok (l, rest) := by
  induction l with
  | nil => rw [List.flatMap_nil, List.nil_append, parseStringBody.eq_def]; simp
  | cons c t ih =>
    have hc : c ≠ '"' := h c (by simp)
    have iht := ih (fun x hx => h x (by simp [hx]))
    rw [List.flatMap_cons, List.append_assoc]
    by_cases hb : c = '\\'
    · subst hb
      have step : parseStringBody ('\\' :: '\\' :: (t.flatMap jsonEscChar ++ '"' :: rest)) =
          (match parseStringBody (t.flatMap jsonEscChar ++ '"' :: rest) with
           | .ok (content, r) => .ok ('\\' :: content, r)
           | .error er => .error er) := by
        rw [parseStringBody.eq_def]
        simp [escCharOf]
      rw [show jsonEscChar '\\' = ['\\', '\\'] from rfl, List.cons_append, List.cons_append,
        List.nil_append, step, iht]
    by_cases h8 : c = Char.ofNat 8
    · subst h8
      have step : parseStringBody ('\\' :: 'b' :: (t.flatMap jsonEscChar ++ '"' :: rest)) =
          (match parseStringBody (t.flatMap jsonEscChar ++ '"' :: rest) with
           | .ok (content, r) => .ok (Char.ofNat 8 :: content, r)
           | .error er => .error er) := by
        rw [parseStringBody.eq_def]
        simp [escCharOf]
      rw [show jsonEscChar (Char.ofNat 8) = ['\\', 'b'] from rfl, List.cons_append,
        List.cons_append, List.nil_append, step, iht]
    by_cases h9 : c = Char.ofNat 9
    · subst h9
      have step : parseStringBody ('\\' :: 't' :: (t.flatMap jsonEscChar ++ '"' :: rest)) =
          (match parseStringBody (t.flatMap jsonEscChar ++ '"' :: rest) with
           | .ok (content, r) => .ok (Char.ofNat 9 :: content, r)
           | .error er => .error er) := by
        rw [parseStringBody.eq_def]
        simp [escCharOf]
      rw [show jsonEscChar (Char.ofNat 9) = ['\\', 't'] from rfl, List.cons_append,
        List.cons_append, List.nil_append, step, iht]
    by_cases h10 : c = Char.ofNat 10
    · subst h10
      have step : parseStringBody ('\\' :: 'n' :: (t.flatMap jsonEscChar ++ '"' :: rest)) =
          (match parseStringBody (t.flatMap jsonEscChar ++ '"' :: rest) with
           | .ok (content, r) => .ok (Char.ofNat 10 :: content, r)
           | .error er => .error er) := by
        rw [parseStringBody.eq_def]
        simp [escCharOf]
      rw [show jsonEscChar (Char.ofNat 10) = ['\\', 'n'] from rfl, List.cons_append,
        List.cons_append, List.nil_append, step, iht]
    by_cases h12 : c = Char.ofNat 12
    · subst h12
      have step : parseStringBody ('\\' :: 'f' :: (t.flatMap jsonEscChar ++ '"' :: rest)) =
          (match parseStringBody (t.flatMap jsonEscChar ++ '"' :: rest) with
           | .ok (content, r) => .ok (Char.ofNat 12 :: content, r)
           | .error er => .error er) := by
        rw [parseStringBody.eq_def]
        simp [escCharOf]
      rw [show jsonEscChar (Char.ofNat 12) = ['\\', 'f'] from rfl, List.cons_append,
        List.cons_append, List.nil_append, step, iht]
    by_cases h13 : c = Char.ofNat 13
    · subst h13
      have step : parseStringBody ('\\' :: 'r' :: (t.flatMap jsonEscChar ++ '"' :: rest)) =
          (match parseStringBody (t.flatMap jsonEscChar ++ '"' :: rest) with
           | .ok (content, r) => .ok (Char.ofNat 13 :: content, r)
           | .error er => .error er) := by
        rw [parseStringBody.eq_def]
        simp [escCharOf]
      rw [show jsonEscChar (Char.ofNat 13) = ['\\', 'r'] from rfl, List.cons_append,
        List.cons_append, List.nil_append, step, iht]
    by_cases hlt : c.toNat < 32
    · have hesc : jsonEscChar c =
          ['\\', 'u', '0', '0', hexChar (c.toNat / 16), hexChar (c.toNat % 16)] := by
        simp only [jsonEscChar, if_neg hc, if_neg hb, if_neg h8, if_neg h9, if_neg h10,
          if_neg h12, if_neg h13, if_pos hlt]
      have hdiv : c.toNat / 16 < 16 := by omega
      have hmod : c.toNat % 16 < 16 := by omega
      have step : parseStringBody ('\\' :: 'u' :: '0' :: '0' :: hexChar (c.toNat / 16) ::
            hexChar (c.toNat % 16) :: (t.flatMap jsonEscChar ++ '"' :: rest)) =
          (match hexVal '0', hexVal '0', hexVal (hexChar (c.toNat / 16)),
              hexVal (hexChar (c.toNat % 16)) with
           | some a, some b, some c2, some d =>
             (match parseStringBody (t.flatMap jsonEscChar ++ '"' :: rest) with
              | .ok (content, r) =>
                .ok (Char.ofNat (((a * 16 + b) * 16 + c2) * 16 + d) :: content, r)
              | .error er => .error er)
           | _, _, _, _ => .error .other) := by
        rw [parseStringBody.eq_def]
        simp [escCharOf]
      rw [hesc, List.cons_append, List.cons_append, List.cons_append, List.cons_append,
        List.cons_append, List.cons_append, List.nil_append, step,
        show hexVal '0' = some 0 from rfl, hexVal_hexChar hdiv, hexVal_hexChar hmod, iht]
      show (Except.ok
          (Char.ofNat (((0 * 16 + 0) * 16 + c.toNat / 16) * 16 + c.toNat % 16) :: t, rest) :
          Except JErr (List Char × List Char)) = Except.ok (c :: t, rest)
      rw [show ((0 * 16 + 0) * 16 + c.toNat / 16) * 16 + c.toNat % 16 = c.toNat by omega,
        Char.ofNat_toNat]
    · have hplain : PlainChar c = true := by
        simp [PlainChar, hc, hb]
        omega
      rw [jsonEscChar_plain hplain, List.cons_append, List.nil_append,
        parseStringBody.eq_def]
      simp only [if_neg hc, if_neg hb, iht]

/-- A maximal digit run followed by a safe tail splits exactly. -/
theorem span_digits_append {ds rest : List Char} (hd : ∀ c ∈ ds, c.isDigit = true)
    (hrest : numSafe rest = true) :
    (ds ++ rest).takeWhile Char.isDigit = ds ∧
      (ds ++ rest).dropWhile Char.isDigit = rest := by
  induction ds with
  | nil =>
    cases rest with
    | nil => simp
    | cons c t =>
      simp only [numSafe, Bool.not_eq_true'] at hrest
      simp [List.takeWhile_cons, List.dropWhile_cons, hrest]
  | cons c t ih =>
    have hc := hd c (by simp)
    obtain ⟨h1, h2⟩ := ih (fun x hx => hd x (by simp [hx]))
    simp [List.takeWhile_cons, List.dropWhile_cons, hc, h1, h2]

/-- `parseNumRest` on a rendered digit run returns the accumulated number. -/
theorem parseNumRest_digits {ds rest : List Char} (hne : ds ≠ [])
    (hd : ∀ c ∈ ds, c.isDigit = true) (hrest : numSafe rest = true) (neg : Bool) :
    parseNumRest neg (ds ++ rest) =
      .ok (.num (if neg then -(Int.ofNat (digitsToNat ds)) else Int.ofNat (digitsToNat ds)),
        rest) := by
  obtain ⟨c, t, rfl⟩ : ∃ c t, ds = c :: t := by
    cases ds with
    | nil => exact absurd rfl hne
    | cons c t => exact ⟨c, t, rfl⟩
  obtain ⟨h1, h2⟩ := span_digits_append hd hrest
  rw [List.cons_append, parseNumRest, if_pos (hd c (by simp))]
  rw [List.cons_append] at h1 h2
  simp only [h1, h2]

/-! ## Shape lemmas for serialized output -/

theorem serElems_cons_cons (x y : Json) (t : List Json) :
    serElems (x :: y :: t) = serVal x ++ ',' :: serElems (y :: t) := rfl

theorem serMembers_cons_cons (k : String) (v : Json) (q : String × Json)
    (t : List (String × Json)) :
    serMembers ((k, v) :: q :: t) = serString k ++ ':' :: serVal v ++ ',' :: serMembers (q :: t) :=
  rfl

/-- Every serialized value starts with a non-whitespace character that is not a
closing bracket. -/
theorem serVal_head (v : Json) :
    ∃ c t, serVal v = c :: t ∧ isWs c = false ∧ c ≠ ']' ∧ c ≠ '}' := by
  cases v with
  | null => exact ⟨'n', _, rfl, by decide, by decide, by decide⟩
  | bool b =>
    cases b with
    | false => exact ⟨'f', _, rfl, by decide, by decide, by decide⟩
    | true => exact ⟨'t', _, rfl, by decide, by decide, by decide⟩
  | num i =>
    show ∃ c t, serInt i = c :: t ∧ _
    rw [serInt]
    by_cases hneg : i < 0
    · exact ⟨'-', _, by rw [if_pos hneg], by decide, by decide, by decide⟩
    · rw [if_neg hneg]
      obtain ⟨c, t, hct⟩ : ∃ c t, natToChars i.toNat = c :: t := by
        cases hh : natToChars i.toNat with
        | nil => exact absurd hh (natToChars_ne_nil _)
        | cons c t => exact ⟨c, t, rfl⟩
      have hdig : c.isDigit = true := natToChars_isDigit _ c (by rw [hct]; simp)
      have hf := digit_head_facts hdig
      exact ⟨c, t, hct, hf.1, hf.2.2.2.2.2.2.2.2.1, hf.2.2.2.2.2.2.2.2.2⟩
  | str s => exact ⟨'"', _, rfl, by decide, by decide, by decide⟩
  | arr xs => exact ⟨'[', _, rfl, by decide, by decide, by decide⟩
  | obj kvs => exact ⟨'{', _, rfl, by decide, by decide, by decide⟩

/-- Serialized element lists (nonempty) start like their first value. -/
theorem serElems_head (x : Json) (xs : List Json) :
    ∃ c t, serElems (x :: xs) = c :: t ∧ isWs c = false ∧ c ≠ ']' ∧ c ≠ '}' := by
  obtain ⟨c, t, hct, h1, h2, h3⟩ := serVal_head x
  cases xs with
  | nil => exact ⟨c, t, hct, h1, h2, h3⟩
  | cons y ys =>
    refine ⟨c, t ++ ',' :: serElems (y :: ys), ?_, h1, h2, h3⟩
    rw [serElems_cons_cons, hct]
    rfl

/-- Serialized member lists (nonempty) start with a quote. -/
theorem serMembers_head (k : String) (v : Json) (kvs : List (String × Json)) :
    ∃ t, serMembers ((k, v) :: kvs) = '"' :: t := by
  cases kvs with
  | nil => exact ⟨_, rfl⟩
  | cons q qs => exact ⟨_, by rw [serMembers_cons_cons]; rfl⟩

/-! ## Structure of well-formed member lists -/

theorem wfList_cons {x : Json} {xs : List Json} (h : wfList (x :: xs) = true) :
    Json.wf x = true ∧ wfList xs = true := by
  have : (Json.wf x && wfList xs) = true := h
  simpa using this

/-- Splitting `wfMembers` at the head: safe key, well-formed value, the tail
is well-formed, and the head key is below every tail key. -/
theorem wfMembers_cons {k : String} {v : Json} {kvs : List (String × Json)}
    (h : wfMembers ((k, v) :: kvs) = true) :
    SafeStr k = true ∧ Json.wf v = true ∧ wfMembers kvs = true ∧
      ∀ q ∈ kvs, strLt k q.1 = true := by
  induction kvs generalizing k v with
  | nil =>
    have : (SafeStr k && Json.wf v) = true := h
    simp at this
    exact ⟨this.1, this.2, rfl, by simp⟩
  | cons q qs ih =>
    obtain ⟨k2, v2⟩ := q
    have hsplit : (SafeStr k && Json.wf v && strLt k k2 && wfMembers ((k2, v2) :: qs)) = true := h
    simp only [Bool.and_eq_true] at hsplit
    obtain ⟨⟨⟨hp, hw⟩, hlt⟩, hrest⟩ := hsplit
    obtain ⟨_, _, _, htail⟩ := ih hrest
    refine ⟨hp, hw, hrest, ?_⟩
    intro q hq
    rcases List.mem_cons.mp hq with hq | hq
    · subst hq; exact hlt
    · exact strLt_trans hlt (htail q hq)

/-! ## Inserting a maximal key appends -/

theorem insertKV_append {acc : List (String × Json)} {k : String} (v : Json)
    (h : ∀ p ∈ acc, strLt p.1 k = true) :
    insertKV acc k v = acc ++ [(k, v)] := by
  induction acc with
  | nil => rfl
  | cons p rest ih =>
    obtain ⟨k', v'⟩ := p
    have hk' : strLt k' k = true := h (k', v') (by simp)
    have h1 : strLt k k' = false := strLt_asymm hk'
    have h2 : k ≠ k' := by
      rintro rfl
      rw [strLt_irrefl] at hk'
      exact Bool.false_ne_true hk'
    rw [insertKV, if_neg (by simp [h1]), if_neg h2,
      ih (fun q hq => h q (by simp [hq]))]
    rfl

/-! ## Round-trip: parsing a serialized well-formed value -/

theorem parseF_top_eq (n : Nat) (cs : List Char) :
    parseF (n + 1) .top cs =
      (match skipWs cs with
      | [] => .error .eof
      | c :: cs' =>
        if c = 'n' then parseIdent ['u', 'l', 'l'] .null cs'
        else if c = 't' then parseIdent ['r', 'u', 'e'] (.bool true) cs'
        else if c = 'f' then parseIdent ['a', 'l', 's', 'e'] (.bool false) cs'
        else if c = '"' then
          match parseStringBody cs' with
          | .ok (content, rest) => .ok (.str (String.mk content), rest)
          | .error e => .error e
        else if c = '-' then parseNumRest true cs'
        else if c = '[' then
          match skipWs cs' with
          | c2 :: rest => if c2 = ']' then .ok (.arr [], rest) else parseF n (.elems []) cs'
          | [] => parseF n (.elems []) cs'
        else if c = '{' then
          match skipWs cs' with
          | c2 :: rest => if c2 = '}' then .ok (.obj [], rest) else parseF n (.membs []) cs'
          | [] => parseF n (.membs []) cs'
        else if c.isDigit then parseNumRest false (c :: cs')
        else .error .other) := rfl

theorem parseF_elems_eq (n : Nat) (acc : List Json) (cs : List Char) :
    parseF (n + 1) (.elems acc) cs =
      (match parseF n .top cs with
      | .error e => .error e
      | .ok (v, rest) =>
        match skipWs rest with
        | [] => .error .eof
        | c :: rest' =>
          if c = ',' then parseF n (.elems (acc ++ [v])) rest'
          else if c = ']' then .ok (.arr (acc ++ [v]), rest')
          else .error .other) := rfl

theorem parseF_membs_eq (n : Nat) (acc : List (String × Json)) (cs : List Char) :
    parseF (n + 1) (.membs acc) cs =
      (match skipWs cs with
      | [] => .error .eof
      | c :: cs' =>
        if c = '"' then
          match parseStringBody cs' with
          | .error e => .error e
          | .ok (key, rest) =>
            match skipWs rest with
            | [] => .error .eof
            | c2 :: rest' =>
              if c2 = ':' then
                match parseF n .top rest' with
                | .error e => .error e
                | .ok (v, rest2) =>
                  let acc' := insertKV acc (String.mk key) v
                  match skipWs rest2 with
                  | [] => .error .eof
                  | c3 :: rest3 =>
                    if c3 = ',' then parseF n (.membs acc') rest3
                    else if c3 = '}' then .ok (.obj acc', rest3)
                    else .error .other
              else .error .other
        else .error .other) := rfl

/-- Round-trip for the element loop: parsing the serialized elements of a
nonempty well-formed list appends them to the accumulator. -/
theorem parseF_elems_ser :
    ∀ (xs : List Json), xs ≠ [] → wfList xs = true →
      (∀ x ∈ xs, Json.wf x = true → ∀ n rest, fuelVal x ≤ n → numSafe rest = true →
        parseF n .top (serVal x ++ rest) = .ok (x, rest)) →
      ∀ n acc rest, fuelElems xs ≤ n →
        parseF n (.elems acc) (serElems xs ++ ']' :: rest) = .ok (.arr (acc ++ xs), rest) := by
  intro xs
  induction xs with
  | nil => intro h; exact absurd rfl h
  | cons x xs' ih =>
    intro _ hwfl hIH n acc rest hn
    obtain ⟨hwx, hwxs'⟩ := wfList_cons hwfl
    have heq : fuelElems (x :: xs') = 1 + max (fuelVal x) (fuelElems xs') := rfl
    obtain ⟨m, rfl⟩ : ∃ m, n = m + 1 := ⟨n - 1, by omega⟩
    rw [parseF_elems_eq]
    cases xs' with
    | nil =>
      rw [show serElems [x] = serVal x from rfl,
        hIH x (by simp) hwx m (']' :: rest) (by omega) rfl]
      rfl
    | cons y t =>
      rw [serElems_cons_cons, List.append_assoc, List.cons_append,
        hIH x (by simp) hwx m (',' :: (serElems (y :: t) ++ ']' :: rest)) (by omega) rfl]
      have hfxs' : fuelElems (y :: t) ≤ m := by omega
      have step := ih (by simp) hwxs' (fun z hz => hIH z (by simp [hz])) m (acc ++ [x]) rest hfxs'
      show parseF m (.elems (acc ++ [x])) (serElems (y :: t) ++ ']' :: rest) =
        .ok (.arr (acc ++ x :: y :: t), rest)
      rw [step]
      simp

theorem parseF_membs_quote (n : Nat) (acc : List (String × Json)) (X : List Char) :
    parseF (n + 1) (.membs acc) ('"' :: X) =
      (match parseStringBody X with
      | .error e => .error e
      | .ok (key, rest) =>
        match skipWs rest with
        | [] => .error .eof
        | c2 :: rest' =>
          if c2 = ':' then
            match parseF n .top rest' with
            | .error e => .error e
            | .ok (v, rest2) =>
              let acc' := insertKV acc (String.mk key) v
              match skipWs rest2 with
              | [] => .error .eof
              | c3 :: rest3 =>
                if c3 = ',' then parseF n (.membs acc') rest3
                else if c3 = '}' then .ok (.obj acc', rest3)
                else .error .other
          else .error .other) := rfl

/-- Round-trip for the member loop: parsing the serialized members of a
nonempty well-formed list inserts them after the (smaller-keyed) accumulator. -/
theorem parseF_membs_ser :
    ∀ (kvs : List (String × Json)), kvs ≠ [] → wfMembers kvs = true →
      (∀ q ∈ kvs, Json.wf q.2 = true → ∀ n rest, fuelVal q.2 ≤ n → numSafe rest = true →
        parseF n .top (serVal q.2 ++ rest) = .ok (q.2, rest)) →
      ∀ n acc rest, fuelMembers kvs ≤ n →
        (∀ p ∈ acc, ∀ q ∈ kvs, strLt p.1 q.1 = true) →
        parseF n (.membs acc) (serMembers kvs ++ '}' :: rest) = .ok (.obj (acc ++ kvs), rest) := by
  intro kvs
  induction kvs with
  | nil => intro h; exact absurd rfl h
  | cons q kvs' ih =>
    obtain ⟨k, v⟩ := q
    intro _ hwfm hIH n acc rest hn hacc
    obtain ⟨hpk, hwv, hwtail, hbelow⟩ := wfMembers_cons hwfm
    have heq : fuelMembers ((k, v) :: kvs') = 1 + max (fuelVal v) (fuelMembers kvs') := rfl
    obtain ⟨m, rfl⟩ : ∃ m, n = m + 1 := ⟨n - 1, by omega⟩
    have hquotek : ∀ c ∈ k.data, c ≠ '"' := (safeStr_facts hpk).1
    have hmkk : String.mk k.data = k := by cases k; rfl
    have hinsert : insertKV acc k v = acc ++ [(k, v)] :=
      insertKV_append v (fun p hp => hacc p hp (k, v) (by simp))
    cases kvs' with
    | nil =>
      have hshape : serMembers [(k, v)] ++ '}' :: rest =
          '"' :: (k.data.flatMap jsonEscChar ++ '"' :: (':' :: (serVal v ++ '}' :: rest))) := by
        rw [show serMembers [(k, v)] = serString k ++ ':' :: serVal v from rfl, serString]
        simp
      rw [hshape, parseF_membs_quote,
        parseStringBody_esc hquotek (':' :: (serVal v ++ '}' :: rest))]
      show (match parseF m .top (serVal v ++ '}' :: rest) with
        | Except.error e => (Except.error e : Except JErr (Json × List Char))
        | Except.ok (v', rest2) =>
          let acc' := insertKV acc (String.mk k.data) v'
          match skipWs rest2 with
          | [] => Except.error JErr.eof
          | c3 :: rest3 =>
            if c3 = ',' then parseF m (.membs acc') rest3
            else if c3 = '}' then Except.ok (Json.obj acc', rest3)
            else Except.error JErr.other) = .ok (.obj (acc ++ [(k, v)]), rest)
      rw [hIH (k, v) (by simp) hwv m ('}' :: rest) (show fuelVal v ≤ m by omega) rfl]
      show Except.ok (Json.obj (insertKV acc (String.mk k.data) v), rest) =
        .ok (.obj (acc ++ [(k, v)]), rest)
      rw [hmkk, hinsert]
    | cons q2 t =>
      have hshape : serMembers ((k, v) :: q2 :: t) ++ '}' :: rest =
          '"' :: (k.data.flatMap jsonEscChar ++ '"' :: (':' ::
            (serVal v ++ ',' :: (serMembers (q2 :: t) ++ '}' :: rest)))) := by
        rw [serMembers_cons_cons, serString]
        simp
      rw [hshape, parseF_membs_quote,
        parseStringBody_esc hquotek
          (':' :: (serVal v ++ ',' :: (serMembers (q2 :: t) ++ '}' :: rest)))]
      show (match parseF m .top
          (serVal v ++ ',' :: (serMembers (q2 :: t) ++ '}' :: rest)) with
        | Except.error e => (Except.error e : Except JErr (Json × List Char))
        | Except.ok (v', rest2) =>
          let acc' := insertKV acc (String.mk k.data) v'
          match skipWs rest2 with
          | [] => Except.error JErr.eof
          | c3 :: rest3 =>
            if c3 = ',' then parseF m (.membs acc') rest3
            else if c3 = '}' then Except.ok (Json.obj acc', rest3)
            else Except.error JErr.other) = .ok (.obj (acc ++ (k, v) :: q2 :: t), rest)
      rw [hIH (k, v) (by simp) hwv m
        (',' :: (serMembers (q2 :: t) ++ '}' :: rest)) (show fuelVal v ≤ m by omega) rfl]
      show parseF m (.membs (insertKV acc (String.mk k.data) v))
          (serMembers (q2 :: t) ++ '}' :: rest) = .ok (.obj (acc ++ (k, v) :: q2 :: t), rest)
      rw [hmkk, hinsert]
      have hacc' : ∀ p ∈ acc ++ [(k, v)], ∀ q ∈ q2 :: t, strLt p.1 q.1 = true := by
        intro p hp qq hq
        rcases List.mem_append.mp hp with hp | hp
        · exact hacc p hp qq (by simp [hq])
        · simp at hp
          subst hp
          exact hbelow qq hq
      rw [ih (by simp) hwtail (fun z hz => hIH z (by simp [hz])) m (acc ++ [(k, v)]) rest
        (by omega) hacc']
      simp

theorem parseF_top_quote (n : Nat) (X : List Char) :
    parseF (n + 1) .top ('"' :: X) =
      (match parseStringBody X with
      | .ok (content, rest) => .ok (.str (String.mk content), rest)
      | .error e => .error e) := rfl

theorem parseF_top_minus (n : Nat) (X : List Char) :
    parseF (n + 1) .top ('-' :: X) = parseNumRest true X := rfl

theorem parseF_top_lbrack (n : Nat) (X : List Char) :
    parseF (n + 1) .top ('[' :: X) =
      (match skipWs X with
      | c2 :: rest => if c2 = ']' then .ok (.arr [], rest) else parseF n (.elems []) ('[' :: X).tail
      | [] => parseF n (.elems []) ('[' :: X).tail) := rfl

theorem parseF_top_lbrace (n : Nat) (X : List Char) :
    parseF (n + 1) .top ('{' :: X) =
      (match skipWs X with
      | c2 :: rest => if c2 = '}' then .ok (.obj [], rest) else parseF n (.membs []) ('{' :: X).tail
      | [] => parseF n (.membs []) ('{' :: X).tail) := rfl

/-- Round-trip: parsing the compact serialization of a well-formed value (with
enough fuel and a tail that cannot extend a number) returns the value and the
tail unchanged. -/
theorem parseF_serVal (v : Json) :
    Json.wf v = true →
      ∀ n rest, fuelVal v ≤ n → numSafe rest = true →
        parseF n .top (serVal v ++ rest) = .ok (v, rest) := by
  induction v using Json.induct with
  | hnull =>
    intro _ n rest hn _
    obtain ⟨m, rfl⟩ : ∃ m, n = m + 1 := ⟨n - 1, by
      have h1 : 1 ≤ n := hn
      omega⟩
    rfl
  | hbool b =>
    intro _ n rest hn _
    obtain ⟨m, rfl⟩ : ∃ m, n = m + 1 := ⟨n - 1, by
      have h1 : 1 ≤ n := hn
      omega⟩
    cases b <;> rfl
  | hnum i =>
    intro _ n rest hn hrest
    obtain ⟨m, rfl⟩ : ∃ m, n = m + 1 := ⟨n - 1, by
      have h1 : 1 ≤ n := hn
      omega⟩
    show parseF (m + 1) .top (serInt i ++ rest) = .ok (.num i, rest)
    rw [serInt]
    by_cases hneg : i < 0
    · rw [if_pos hneg, List.cons_append, parseF_top_minus,
        parseNumRest_digits (natToChars_ne_nil _) (natToChars_isDigit _) hrest true,
        digitsToNat_natToChars]
      have h2 : -(Int.ofNat i.natAbs) = i := show -((i.natAbs : Int)) = i by omega
      rw [h2]
      simp
    · rw [if_neg hneg]
      obtain ⟨c, t, hct⟩ : ∃ c t, natToChars i.toNat = c :: t := by
        cases hh : natToChars i.toNat with
        | nil => exact absurd hh (natToChars_ne_nil _)
        | cons c t => exact ⟨c, t, rfl⟩
      have hdig : c.isDigit = true := natToChars_isDigit _ c (by rw [hct]; simp)
      obtain ⟨hws, hnn, hnt, hnf, hnq, hnm, hnlb, hnlc, _, _⟩ := digit_head_facts hdig
      rw [hct, List.cons_append, parseF_top_eq, skipWs_cons _ hws]
      simp only [if_neg hnn, if_neg hnt, if_neg hnf, if_neg hnq, if_neg hnm,
        if_neg hnlb, if_neg hnlc, if_pos hdig]
      rw [← List.cons_append, ← hct,
        parseNumRest_digits (natToChars_ne_nil _) (natToChars_isDigit _) hrest false,
        digitsToNat_natToChars]
      have h2 : Int.ofNat i.toNat = i := show ((i.toNat : Int)) = i by omega
      rw [h2]
      simp
  | hstr s =>
    intro hwf n rest hn _
    obtain ⟨m, rfl⟩ : ∃ m, n = m + 1 := ⟨n - 1, by
      have h1 : 1 ≤ n := hn
      omega⟩
    have hps : SafeStr s = true := hwf
    have hq : ∀ c ∈ s.data, c ≠ '"' := (safeStr_facts hps).1
    show parseF (m + 1) .top (serString s ++ rest) = .ok (.str s, rest)
    rw [serString,
      show ('"' :: s.data.flatMap jsonEscChar ++ ['"']) ++ rest =
        '"' :: (s.data.flatMap jsonEscChar ++ '"' :: rest) by simp,
      parseF_top_quote, parseStringBody_esc hq rest]
  | harr xs hxs =>
    intro hwf n rest hn _
    cases xs with
    | nil =>
      obtain ⟨m, rfl⟩ : ∃ m, n = m + 1 := ⟨n - 1, by
        have h1 : 1 ≤ n := hn
        omega⟩
      rfl
    | cons x xs' =>
      have hwfl : wfList (x :: xs') = true := hwf
      have heq : fuelVal (.arr (x :: xs')) = 1 + fuelElems (x :: xs') := rfl
      obtain ⟨m, rfl⟩ : ∃ m, n = m + 1 := ⟨n - 1, by omega⟩
      obtain ⟨c, t, hct, hws, hne, _⟩ := serElems_head x xs'
      show parseF (m + 1) .top
        (('[' :: serElems (x :: xs') ++ [']']) ++ rest) = .ok (.arr (x :: xs'), rest)
      rw [show ('[' :: serElems (x :: xs') ++ [']']) ++ rest =
        '[' :: (serElems (x :: xs') ++ ']' :: rest) by simp, parseF_top_lbrack,
        show serElems (x :: xs') ++ ']' :: rest = c :: (t ++ ']' :: rest) by rw [hct]; simp,
        skipWs_cons _ hws]
      simp only [if_neg hne, List.tail_cons]
      rw [← show serElems (x :: xs') ++ ']' :: rest = c :: (t ++ ']' :: rest) by rw [hct]; simp]
      rw [parseF_elems_ser (x :: xs') (by simp) hwfl
        (fun z hz => hxs z hz) m [] rest (by omega)]
      rfl
  | hobj kvs hkvs =>
    intro hwf n rest hn _
    cases kvs with
    | nil =>
      obtain ⟨m, rfl⟩ : ∃ m, n = m + 1 := ⟨n - 1, by
        have h1 : 1 ≤ n := hn
        omega⟩
      rfl
    | cons q kvs' =>
      obtain ⟨k, v⟩ := q
      have hwfm : wfMembers ((k, v) :: kvs') = true := hwf
      have heq : fuelVal (.obj ((k, v) :: kvs')) = 1 + fuelMembers ((k, v) :: kvs') := rfl
      obtain ⟨m, rfl⟩ : ∃ m, n = m + 1 := ⟨n - 1, by omega⟩
      obtain ⟨t, hct⟩ := serMembers_head k v kvs'
      show parseF (m + 1) .top
        (('{' :: serMembers ((k, v) :: kvs') ++ ['}']) ++ rest) = .ok (.obj ((k, v) :: kvs'), rest)
      rw [show ('{' :: serMembers ((k, v) :: kvs') ++ ['}']) ++ rest =
        '{' :: (serMembers ((k, v) :: kvs') ++ '}' :: rest) by simp, parseF_top_lbrace,
        show serMembers ((k, v) :: kvs') ++ '}' :: rest =
          '"' :: (t ++ '}' :: rest) by rw [hct]; simp,
        skipWs_cons _ (by decide)]
      simp only [if_neg (by decide : ¬ ('"' = '}')), List.tail_cons]
      rw [← show serMembers ((k, v) :: kvs') ++ '}' :: rest =
        '"' :: (t ++ '}' :: rest) by rw [hct]; simp]
      rw [parseF_membs_ser ((k, v) :: kvs') (by simp) hwfm
        (fun z hz => hkvs z hz) m [] rest (by omega) (by simp)]
      rfl

/-! ## The default fuel of `jsonFromStr` is enough -/

theorem fuelElems_le (xs : List Json) (h : ∀ x ∈ xs, fuelVal x ≤ (serVal x).length) :
    fuelElems xs ≤ (serElems xs).length + 1 := by
  induction xs with
  | nil => exact Nat.le_succ 0
  | cons x xs' ih =>
    cases xs' with
    | nil =>
      have hx := h x (by simp)
      have e1 : fuelElems [x] = 1 + max (fuelVal x) 0 := rfl
      have e2 : serElems [x] = serVal x := rfl
      rw [e1, e2]
      omega
    | cons y t =>
      have hx := h x (by simp)
      have ih' := ih (fun z hz => h z (by simp [hz]))
      have e1 : fuelElems (x :: y :: t) = 1 + max (fuelVal x) (fuelElems (y :: t)) := rfl
      rw [e1, serElems_cons_cons]
      simp only [List.length_append, List.length_cons]
      omega

theorem fuelMembers_le (kvs : List (String × Json))
    (h : ∀ q ∈ kvs, fuelVal q.2 ≤ (serVal q.2).length) :
    fuelMembers kvs ≤ (serMembers kvs).length + 1 := by
  induction kvs with
  | nil => exact Nat.le_succ 0
  | cons q kvs' ih =>
    obtain ⟨k, v⟩ := q
    cases kvs' with
    | nil =>
      have hv := h (k, v) (by simp)
      have e1 : fuelMembers [(k, v)] = 1 + max (fuelVal v) 0 := rfl
      have e2 : serMembers [(k, v)] = serString k ++ ':' :: serVal v := rfl
      rw [e1, e2]
      simp only [List.length_append, List.length_cons]
      simp only at hv
      omega
    | cons q2 t =>
      have hv := h (k, v) (by simp)
      have ih' := ih (fun z hz => h z (by simp [hz]))
      have e1 : fuelMembers ((k, v) :: q2 :: t) =
        1 + max (fuelVal v) (fuelMembers (q2 :: t)) := rfl
      rw [e1, serMembers_cons_cons]
      simp only [List.length_append, List.length_cons]
      simp only at hv
      omega

/-- The serialization is at least as long as the fuel the parser needs. -/
theorem fuelVal_le_serLen (v : Json) : fuelVal v ≤ (serVal v).length := by
  induction v using Json.induct with
  | hnull => decide
  | hbool b => cases b <;> decide
  | hnum i =>
    show 1 ≤ (serInt i).length
    have hne : serInt i ≠ [] := by
      rw [serInt]
      by_cases hneg : i < 0
      · simp [if_pos hneg]
      · rw [if_neg hneg]
        exact natToChars_ne_nil _
    have : (serInt i).length ≠ 0 := fun e => hne (List.length_eq_zero.mp e)
    omega
  | hstr s =>
    show 1 ≤ (serString s).length
    rw [serString]
    simp
  | harr xs h =>
    cases xs with
    | nil => decide
    | cons x t =>
      have hb := fuelElems_le (x :: t) h
      have e1 : fuelVal (.arr (x :: t)) = 1 + fuelElems (x :: t) := rfl
      have e2 : (serVal (.arr (x :: t))).length = (serElems (x :: t)).length + 2 := by
        show ('[' :: serElems (x :: t) ++ [']']).length = _
        simp
      omega
  | hobj kvs h =>
    cases kvs with
    | nil => decide
    | cons q t =>
      have hb := fuelMembers_le (q :: t) h
      have e1 : fuelVal (.obj (q :: t)) = 1 + fuelMembers (q :: t) := rfl
      have e2 : (serVal (.obj (q :: t))).length = (serMembers (q :: t)).length + 2 := by
        show ('{' :: serMembers (q :: t) ++ ['}']).length = _
        simp
      omega

/-- `from_str ∘ to_string` is the identity on well-formed values. -/
theorem jsonFromStr_serVal (v : Json) (hwf : Json.wf v = true) :
    jsonFromStr (String.mk (serVal v)) = .ok v := by
  have hp : parseF ((String.mk (serVal v)).length + 1) .top (serVal v) = .ok (v, []) := by
    have hfuel : fuelVal v ≤ (String.mk (serVal v)).length + 1 := by
      have := fuelVal_le_serLen v
      have hlen : (String.mk (serVal v)).length = (serVal v).length := rfl
      omega
    have := parseF_serVal v hwf ((String.mk (serVal v)).length + 1) [] hfuel rfl
    simpa using this
  simp only [jsonFromStr]
  rw [hp]
  rfl

/-! ## No `\"` pattern ever appears in a well-formed serialization

`noBQ` holds when no backslash is immediately followed by a quote.  Inside the
serialization of a safe string every backslash heads an escape whose second
character is never a quote, and the closing delimiter quote is not preceded by
a backslash because a safe string does not end in one; outside strings the
serializer separates pieces with commas, colons, brackets and braces. -/

/-- No `\"` two-character pattern anywhere in the list. -/
def noBQ : List Char → Bool
  | [] => true
  | [_] => true
  | c :: d :: cs => !(c = '\\' && d = '"') && noBQ (d :: cs)

theorem noBQ_cons_of_ne {c : Char} (hc : c ≠ '\\') {l : List Char}
    (hl : noBQ l = true) : noBQ (c :: l) = true := by
  cases l with
  | nil => rfl
  | cons d t =>
    show (!(c = '\\' && d = '"') && noBQ (d :: t)) = true
    simp [hc, hl]

theorem noBQ_of_not_mem {l : List Char} (h : '\\' ∉ l) : noBQ l = true := by
  induction l with
  | nil => rfl
  | cons c t ih =>
    exact noBQ_cons_of_ne (fun e => h (by simp [e])) (ih (fun hm => h (by simp [hm])))

/-- Concatenation preserves `noBQ` when the junction cannot form `\"`. -/
theorem noBQ_append {a : List Char} :
    ∀ b, noBQ a = true → noBQ b = true →
      (lastIsBslash a = true → b.head? ≠ some '"') → noBQ (a ++ b) = true := by
  induction a with
  | nil =>
    intro b _ hb _
    simpa using hb
  | cons x t ih =>
    intro b ha hb hab
    cases t with
    | nil =>
      cases b with
      | nil => rfl
      | cons y u =>
        show (!(x = '\\' && y = '"') && noBQ (y :: u)) = true
        by_cases hx : x = '\\'
        · have hy : y ≠ '"' := by
            have := hab (by simp [lastIsBslash, hx])
            simpa using this
          simp [hy, hb]
        · simp [hx, hb]
    | cons x' a' =>
      have hsplit : (!(x = '\\' && x' = '"') && noBQ (x' :: a')) = true := ha
      simp only [Bool.and_eq_true] at hsplit
      have hrest := ih b hsplit.2 hb (fun hl => hab hl)
      show (!(x = '\\' && x' = '"') && noBQ (x' :: (a' ++ b))) = true
      simp only [Bool.and_eq_true]
      exact ⟨hsplit.1, hrest⟩

/-- An escape block is never empty. -/
theorem jsonEscChar_ne_nil (c : Char) : jsonEscChar c ≠ [] := by
  rw [jsonEscChar]
  repeat' split
  all_goals simp

/-- An escape block of a non-quote character never starts with a quote. -/
theorem jsonEscChar_head {c : Char} (h : c ≠ '"') :
    (jsonEscChar c).head? ≠ some '"' := by
  rw [jsonEscChar]
  repeat' split
  all_goals simp
  exact h

theorem hexChar_ne_bslash {d : Nat} (hd : d < 16) : hexChar d ≠ '\\' := by
  interval_cases d <;> decide

/-- The escape block of a non-backslash character never ends in a backslash. -/
theorem jsonEscChar_last {c : Char} (hq : c ≠ '"') (hb : c ≠ '\\') :
    lastIsBslash (jsonEscChar c) = false := by
  by_cases h8 : c = Char.ofNat 8
  · subst h8; decide
  by_cases h9 : c = Char.ofNat 9
  · subst h9; decide
  by_cases h10 : c = Char.ofNat 10
  · subst h10; decide
  by_cases h12 : c = Char.ofNat 12
  · subst h12; decide
  by_cases h13 : c = Char.ofNat 13
  · subst h13; decide
  by_cases hlt : c.toNat < 32
  · rw [show jsonEscChar c =
        ['\\', 'u', '0', '0', hexChar (c.toNat / 16), hexChar (c.toNat % 16)] by
      simp only [jsonEscChar, if_neg hq, if_neg hb, if_neg h8, if_neg h9, if_neg h10,
        if_neg h12, if_neg h13, if_pos hlt]]
    exact decide_eq_false (hexChar_ne_bslash (by omega))
  · have hplain : PlainChar c = true := by
      simp [PlainChar, hq, hb]
      omega
    rw [jsonEscChar_plain hplain]
    exact decide_eq_false hb

/-- Escape blocks have no internal `\"` pattern. -/
theorem jsonEscChar_noBQ {c : Char} (hq : c ≠ '"') : noBQ (jsonEscChar c) = true := by
  by_cases hb : c = '\\'
  · subst hb; decide
  by_cases h8 : c = Char.ofNat 8
  · subst h8; decide
  by_cases h9 : c = Char.ofNat 9
  · subst h9; decide
  by_cases h10 : c = Char.ofNat 10
  · subst h10; decide
  by_cases h12 : c = Char.ofNat 12
  · subst h12; decide
  by_cases h13 : c = Char.ofNat 13
  · subst h13; decide
  by_cases hlt : c.toNat < 32
  · rw [show jsonEscChar c =
        ['\\', 'u', '0', '0', hexChar (c.toNat / 16), hexChar (c.toNat % 16)] by
      simp only [jsonEscChar, if_neg hq, if_neg hb, if_neg h8, if_neg h9, if_neg h10,
        if_neg h12, if_neg h13, if_pos hlt]]
    simp [noBQ, decide_eq_false (hexChar_ne_bslash (show c.toNat / 16 < 16 by omega))]
  · have hplain : PlainChar c = true := by
      simp [PlainChar, hq, hb]
      omega
    rw [jsonEscChar_plain hplain]
    rfl

/-- The serialized body of a safe string, with its closing quote, has no `\"`
pattern. -/
theorem noBQ_flatMap_quote {l : List Char} (hq : ∀ c ∈ l, c ≠ '"')
    (hlast : lastIsBslash l = false) :
    noBQ (l.flatMap jsonEscChar ++ ['"']) = true := by
  induction l with
  | nil => rfl
  | cons c t ih =>
    have hc : c ≠ '"' := hq c (by simp)
    rw [List.flatMap_cons, List.append_assoc]
    cases t with
    | nil =>
      have hcb : c ≠ '\\' := by
        intro e
        rw [e] at hlast
        exact absurd hlast (by decide)
      simp only [List.flatMap_nil, List.nil_append]
      refine noBQ_append _ (jsonEscChar_noBQ hc) (by decide) (fun hl => ?_)
      rw [jsonEscChar_last hc hcb] at hl
      exact absurd hl (by decide)
    | cons d t' =>
      have hd : d ≠ '"' := hq d (by simp)
      have iht := ih (fun x hx => hq x (by simp [hx])) hlast
      refine noBQ_append _ (jsonEscChar_noBQ hc) iht (fun _ => ?_)
      obtain ⟨e, es, hee⟩ : ∃ e es, jsonEscChar d = e :: es := by
        cases hgg : jsonEscChar d with
        | nil => exact absurd hgg (jsonEscChar_ne_nil d)
        | cons e es => exact ⟨e, es, rfl⟩
      rw [List.flatMap_cons, hee, List.cons_append, List.cons_append]
      have hh := jsonEscChar_head hd
      rw [hee] at hh
      simpa using hh

/-- A safe string's full serialization (delimiters included) has no `\"`. -/
theorem noBQ_serString {s : String} (hs : SafeStr s = true) :
    noBQ (serString s) = true := by
  obtain ⟨hq, hlast⟩ := safeStr_facts hs
  rw [serString, List.cons_append]
  exact noBQ_cons_of_ne (by decide) (noBQ_flatMap_quote hq hlast)

theorem bslash_not_mem_serInt (i : Int) : '\\' ∉ serInt i := by
  have hdig : ∀ c ∈ natToChars i.natAbs ++ natToChars i.toNat, c ≠ '\\' := by
    intro c hc
    have : c.isDigit = true := by
      rcases List.mem_append.mp hc with hc | hc
      · exact natToChars_isDigit _ c hc
      · exact natToChars_isDigit _ c hc
    obtain ⟨h1, h2⟩ := isDigit_bounds this
    exact fun e => absurd (e ▸ h2) (by decide)
  rw [serInt]
  by_cases hneg : i < 0
  · rw [if_pos hneg]
    intro hmem
    rcases List.mem_cons.mp hmem with hc | hc
    · exact absurd hc.symm (by decide)
    · exact hdig _ (List.mem_append.mpr (Or.inl hc)) rfl
  · rw [if_neg hneg]
    intro hmem
    exact hdig _ (List.mem_append.mpr (Or.inr hmem)) rfl

theorem noBQ_serElems (xs : List Json)
    (h : ∀ x ∈ xs, Json.wf x = true → noBQ (serVal x) = true) (hw : wfList xs = true) :
    noBQ (serElems xs) = true := by
  induction xs with
  | nil => rfl
  | cons x xs' ih =>
    obtain ⟨hwx, hwxs'⟩ := wfList_cons hw
    cases xs' with
    | nil => exact h x (by simp) hwx
    | cons y t =>
      rw [serElems_cons_cons]
      exact noBQ_append _ (h x (by simp) hwx)
        (noBQ_cons_of_ne (by decide) (ih (fun z hz => h z (by simp [hz])) hwxs'))
        (fun _ => by simp)

theorem noBQ_serMembers (kvs : List (String × Json))
    (h : ∀ q ∈ kvs, Json.wf q.2 = true → noBQ (serVal q.2) = true)
    (hw : wfMembers kvs = true) :
    noBQ (serMembers kvs) = true := by
  induction kvs with
  | nil => rfl
  | cons q kvs' ih =>
    obtain ⟨k, v⟩ := q
    obtain ⟨hpk, hwv, hwtail, _⟩ := wfMembers_cons hw
    have hks : noBQ (serString k) = true := noBQ_serString hpk
    have hvs : noBQ (serVal v) = true := h (k, v) (by simp) hwv
    cases kvs' with
    | nil =>
      rw [show serMembers [(k, v)] = serString k ++ ':' :: serVal v from rfl]
      exact noBQ_append _ hks (noBQ_cons_of_ne (by decide) hvs) (fun _ => by simp)
    | cons q2 t =>
      rw [serMembers_cons_cons]
      exact noBQ_append _
        (noBQ_append _ hks (noBQ_cons_of_ne (by decide) hvs) (fun _ => by simp))
        (noBQ_cons_of_ne (by decide) (ih (fun z hz => h z (by simp [hz])) hwtail))
        (fun _ => by simp)

/-- A well-formed value's compact serialization never contains the `\"`
two-character pattern `JsonField::unescape` rewrites. -/
theorem noBQ_serVal (v : Json) (hwf : Json.wf v = true) : noBQ (serVal v) = true := by
  induction v using Json.induct with
  | hnull => decide
  | hbool b => cases b <;> decide
  | hnum i => exact noBQ_of_not_mem (bslash_not_mem_serInt i)
  | hstr s => exact noBQ_serString (show SafeStr s = true from hwf)
  | harr xs h =>
    have hw : wfList xs = true := hwf
    show noBQ ('[' :: serElems xs ++ [']']) = true
    rw [List.cons_append]
    exact noBQ_cons_of_ne (by decide)
      (noBQ_append _ (noBQ_serElems xs h hw) (by decide) (fun _ => by decide))
  | hobj kvs h =>
    have hw : wfMembers kvs = true := hwf
    show noBQ ('{' :: serMembers kvs ++ ['}']) = true
    rw [List.cons_append]
    exact noBQ_cons_of_ne (by decide)
      (noBQ_append _ (noBQ_serMembers kvs h hw) (by decide) (fun _ => by decide))

/-- On input without the `\"` pattern the rewrite is the identity. -/
theorem replaceEscQuote_of_noBQ {l : List Char} (h : noBQ l = true) :
    replaceEscQuote l = l := by
  induction l with
  | nil => rfl
  | cons c cs ih =>
    cases cs with
    | nil => rfl
    | cons d cs' =>
      have h1 : (!(decide (c = '\\') && decide (d = '"')) && noBQ (d :: cs')) = true := h
      simp only [Bool.and_eq_true, Bool.not_eq_true'] at h1
      have hcond : ¬(c = '\\' ∧ d = '"') := by
        rintro ⟨e1, e2⟩
        rw [e1, e2] at h1
        exact absurd h1.1 (by decide)
      rw [replaceEscQuote.eq_def]
      simp only [if_neg hcond]
      rw [ih h1.2]

/-! ## Remaining model definitions -/

/-- Whether the top-level value is a string (`Value::is_string`). -/
def Json.isString : Json → Bool
  | .str _ => true
  | _ => false

/-- `Value::as_str`. -/
def Json.asStr : Json → Option String
  | .str s => some s
  | _ => none

/-- A compiled regular expression, abstracted to its matcher
(`regex::Regex::is_match`); compilation of the pattern text is external. -/
def Matcher := String → Bool

/-- `json::merge` (src/processor/json.rs): collect entries into one object,
keeping only regex-matching keys when a filter is given.  `collect::<Value>`
builds the `BTreeMap`-backed object, later duplicates winning. -/
def merge (entries : List (String × Json)) (filter : Option Matcher) : Json :=
  match filter with
  | none => collectObj entries
  | some regex => collectObj (entries.filter (fun kv => regex kv.1))

/-- `json::split` (src/processor/json.rs): expand the object's entries,
keeping only regex-matching keys when a filter is given.  The input list
stands for one iteration order of the `HashMap`; `par_drain`'s output order is
quantified over in the theorems. -/
def split (entries : List (String × Json)) (filter : Option Matcher) :
    List (String × Json) :=
  match filter with
  | none => entries
  | some regex => entries.filter (fun kv => regex kv.1)

/-- Last-wins lookup over raw entries (later duplicates shadow earlier ones,
as with successive `Map::insert`). -/
def lookupLast (entries : List (String × Json)) (k : String) : Option Json :=
  lookupKV entries.reverse k

/-- Lookup of a key in a JSON object (none on other values). -/
def Json.objLookup : Json → String → Option Json
  | .obj kvs, k => lookupKV kvs k
  | _, _ => none

/-! ### JSON pointers (`Value::pointer`, `Value::pointer_mut`) -/

/-- Split a character list at every occurrence of `sep` (Rust `str::split`). -/
def splitOnChar (sep : Char) : List Char → List (List Char)
  | [] => [[]]
  | c :: cs =>
    match splitOnChar sep cs with
    | [] => if c = sep then [[], []] else [[c]]
    | t :: ts => if c = sep then [] :: t :: ts else (c :: t) :: ts

/-- `token.replace("~1", "/")`. -/
def ptrUnescape1 : List Char → List Char
  | [] => []
  | [c] => [c]
  | c :: d :: cs =>
    if c = '~' ∧ d = '1' then '/' :: ptrUnescape1 cs else c :: ptrUnescape1 (d :: cs)

/-- `token.replace("~0", "~")`. -/
def ptrUnescape0 : List Char → List Char
  | [] => []
  | [c] => [c]
  | c :: d :: cs =>
    if c = '~' ∧ d = '0' then '~' :: ptrUnescape0 cs else c :: ptrUnescape0 (d :: cs)

/-- One JSON-pointer reference token after unescaping. -/
def ptrToken (t : List Char) : String := String.mk (ptrUnescape0 (ptrUnescape1 t))

/-- serde's `parse_index`: no leading `+`, no superfluous leading zero. -/
def ptrParseIndex (s : String) : Option Nat :=
  match s.data with
  | [] => none
  | c :: cs =>
    if c = '+' then none
    else if c = '0' ∧ cs ≠ [] then none
    else if (c :: cs).all Char.isDigit then some (digitsToNat (c :: cs)) else none

/-- Walk the reference tokens (`try_fold` in serde's `pointer`). -/
def Json.resolveTokens : Json → List String → Option Json
  | v, [] => some v
  | .obj kvs, t :: ts =>
    match lookupKV kvs t with
    | some v => v.resolveTokens ts
    | none => none
  | .arr xs, t :: ts =>
    match ptrParseIndex t with
    | some i =>
      match xs.get? i with
      | some v => v.resolveTokens ts
      | none => none
    | none => none
  | _, _ :: _ => none

/-- `Value::pointer`. -/
def Json.pointer (v : Json) (p : String) : Option Json :=
  if p = "" then some v
  else if p.data.head? ≠ some '/' then none
  else v.resolveTokens (((splitOnChar '/' p.data).drop 1).map ptrToken)

/-- Apply `f` to the value under a key if the key is present (`Map::get_mut`). -/
def updateAssoc (kvs : List (String × Json)) (k : String) (f : Json → Json) :
    List (String × Json) :=
  match kvs with
  | [] => []
  | (k', v') :: rest =>
    if k = k' then (k', f v') :: rest else (k', v') :: updateAssoc rest k f

/-- Apply `f` at an index if it is in bounds (`[_]::get_mut`). -/
def updateIdx (xs : List Json) (i : Nat) (f : Json → Json) : List Json :=
  match xs, i with
  | [], _ => []
  | x :: rest, 0 => f x :: rest
  | x :: rest, n + 1 => x :: updateIdx rest n f

/-- Walk the tokens and rewrite the addressed value in place
(`Value::pointer_mut` followed by an assignment); a path that does not resolve
leaves the document unchanged. -/
def Json.updateTokens : Json → List String → (Json → Json) → Json
  | v, [], f => f v
  | .obj kvs, t :: ts, f => .obj (updateAssoc kvs t (fun v => v.updateTokens ts f))
  | .arr xs, t :: ts, f =>
    match ptrParseIndex t with
    | some i => .arr (updateIdx xs i (fun v => v.updateTokens ts f))
    | none => .arr xs
  | v, _ :: _, _ => v

/-- `json.pointer_mut(p).map(|value| *value = f(value))`. -/
def Json.updateAt (v : Json) (p : String) (f : Json → Json) : Json :=
  if p = "" then f v
  else if p.data.head? ≠ some '/' then v
  else v.updateTokens (((splitOnChar '/' p.data).drop 1).map ptrToken) f

/-! ### The NDJSON engine (src/processor/ndjson.rs) -/

/-- `dots_to_slashes`: `a.b.c` to `/a/b/c` (split on `.`, join with `/`,
prepend `/`). -/
def dots_to_slashes (str : String) : String :=
  "/" ++ String.mk (List.intercalate ['/'] (splitOnChar '.' str.data))

/-- `format!("{i:06}")`: zero-pad the decimal to at least six digits. -/
def pad6 (i : Nat) : List Char :=
  List.replicate (6 - (natToChars i).length) '0' ++ natToChars i

/-- The fallback sequence name `object-NNNNNN`. -/
def defaultName (i : Nat) : String := "object-" ++ String.mk (pad6 i)

/-- The `name_entry` closure of `NdjsonUnbundler::unbundle`: probe the name
paths with `find_map` (first path that resolves at all), read it as a string
(`as_str().unwrap_or_default()`), fall back to `object-NNNNNN`; then append
`.<type>` if the type path resolves.  `name_list` and `type_field` are already
pointer-converted by `dots_to_slashes`. -/
def name_entry (name_list : List String) (type_field : Option String) (i : Nat)
    (json : Json) : String :=
  let default_name := defaultName i
  let name :=
    match name_list.findSome? (fun name => json.pointer name) with
    | none => default_name
    | some value => (value.asStr.getD "")
  match type_field with
  | some field =>
    match json.pointer field with
    | none => name
    | some value => name ++ "." ++ (value.asStr.getD "")
  | none => name

/-- The claim's reading of name derivation: the first path that resolves **to a
string**; formalized from the spec sentence, for comparison with `name_entry`. -/
def name_probe_spec (name_list : List String) (i : Nat) (json : Json) : String :=
  match name_list.findSome? (fun name => (json.pointer name).bind Json.asStr) with
  | some s => s
  | none => defaultName i

/-- `NdjsonUnbundler::unescape_fields`: unescape the codec at every configured
path (missing paths are no-ops). -/
def unescape_fields (fields : Option (List String)) (json : Json) : Json :=
  match fields with
  | none => json
  | some fs =>
    fs.foldl (fun j field => j.updateAt (dots_to_slashes field) unescapeValue) json

/-- The `while let` loop of `NdjsonUnbundler::unbundle` over the stream's
lines (each line as `read_line` leaves it in the buffer, trailing newline
included).  When the lines run out the buffer stays empty, `from_str` fails
with its end-of-input class and the loop breaks; a parse failure of any other
class skips the line; both keep the final result a success.  The collected
output is the sequence of single-entry batches passed to `write_entries`. -/
def unbundleFrom (name_list : List String) (type_field : Option String)
    (uf : Option (List String)) : Nat → List String → List (String × Json)
  | _, [] => []
  | i, line :: rest =>
    match jsonFromStr line with
    | .ok json =>
      let json := unescape_fields uf json
      (name_entry name_list type_field i json, json) ::
        unbundleFrom name_list type_field uf (i + 1) rest
    | .error .eof => []
    | .error .other => unbundleFrom name_list type_field uf (i + 1) rest

/-- `NdjsonUnbundler::unbundle`: convert the configured paths, run the loop,
return success (parse failures never escape the loop). -/
def unbundle (name : Option (List String)) (type_field : Option String)
    (uf : Option (List String)) (lines : List String) :
    Except JErr (List (String × Json)) :=
  let name_list :=
    match name with
    | some list => list.map (fun n => dots_to_slashes n)
    | none => []
  .ok (unbundleFrom name_list (type_field.map (fun f => dots_to_slashes f)) uf 0 lines)

/-! ### Bundle and the I/O enums (src/ndjson.rs, src/input.rs, src/output.rs) -/

/-- `enum Input` (src/input.rs). -/
inductive Input where
  | stdin : Input
  | file : String → Input
  | directory : String → Input

/-- `enum Output` (src/output.rs); the `File` writer handle is external I/O. -/
inductive Output where
  | stdout : Bool → Output
  | file : String → Bool → Output
  | directory : String → Bool → Output

/-- The final path component (after the last `/`). -/
def lastComponent (s : String) : List Char :=
  (s.data.reverse.takeWhile (fun c => !(c = '/'))).reverse

/-- `Path::extension`: the part after the final dot of the file name, unless
there is no dot or the only dot leads a hidden file. -/
def pathExtension? (s : String) : Option String :=
  match lastComponent s with
  | [] => none
  | _ :: rest =>
    if rest.contains '.' then
      some (String.mk (rest.reverse.takeWhile (fun c => !(c = '.'))).reverse)
    else none

/-- `Path::file_stem`: the file name up to its final dot, under the same
conditions. -/
def fileStem (s : String) : String :=
  match lastComponent s with
  | [] => ""
  | c :: rest =>
    if rest.contains '.' then
      String.mk (c :: ((rest.reverse.dropWhile (fun c => !(c = '.'))).drop 1).reverse)
    else String.mk (c :: rest)

/-- `read_directory_to_output` (src/ndjson.rs): append each `.json` file's
parsed content to the output; a parse failure propagates through `?`, aborting
the iteration.  Returns the documents appended before any failure, and the
failure if one occurred. -/
def read_directory_to_output (files : List (String × String)) :
    List Json × Option JErr :=
  match files with
  | [] => ([], none)
  | (name, content) :: rest =>
    if pathExtension? name = some "json" then
      match jsonFromStr content with
      | .error e => ([], some e)
      | .ok json =>
        let out := read_directory_to_output rest
        (json :: out.1, out.2)
    else read_directory_to_output rest

/-- `bundle` (src/ndjson.rs): fail fast on a directory sink or a non-directory
source, otherwise stream the directory's `.json` files.  `listing` is the
filesystem's directory iteration; the sink's writer is the accumulated list. -/
def bundle (input : Input) (output : Output)
    (listing : String → List (String × String)) :
    Except String (List Json × Option JErr) :=
  match output with
  | .directory _ _ => .error "Cannot bundle to a directory"
  | _ =>
    match input with
    | .directory dir => .ok (read_directory_to_output (listing dir))
    | .file _ =>
      .error "Cannot bundle from a single file, multiple objects in a file is invalid JSON!"
    | .stdin => .error "Why bundle from stdin? Just redirect output to a file!"

/-! ### Directory sink and source (src/output.rs, src/input/file.rs) -/

/-- Create-or-truncate one file in a directory (the filesystem is an
association list from file name to stored document; serde's
serializer/parser pair on file contents is the identity modelled away). -/
def fsWrite (fs : List (String × Json)) (name : String) (v : Json) :
    List (String × Json) :=
  if (fs.map Prod.fst).contains name then
    fs.map (fun p => if p.1 = name then (name, v) else p)
  else fs ++ [(name, v)]

/-- `Output::write_entries` on a `Directory` sink: write each entry to
`<dir>/<name>.json`.  rayon's `par_drain` leaves the write order unspecified;
the theorems quantify over it. -/
def write_entries_dir (fs : List (String × Json)) (entries : List (String × Json)) :
    List (String × Json) :=
  entries.foldl (fun acc kv => fsWrite acc (kv.1 ++ ".json") kv.2) fs

/-- `read_entries_from_directory` (src/input/file.rs): parse every directory
entry, name it by its file stem, sort by name if asked. -/
def read_entries_from_directory (fs : List (String × Json)) (sort : Bool) :
    List (String × Json) :=
  let entries := fs.map (fun fv => (fileStem fv.1, fv.2))
  if sort then entries.mergeSort (fun a b => !strLt b.1 a.1) else entries

/-- `impl FromStr for Output` (src/output.rs): `-` is stdout; an existing
directory, or any path without an extension, is a directory sink; otherwise a
file sink whose backing file is opened with `create(true)` (created when
absent).  `isDir`/`isFile` are the filesystem's `Path::is_dir`/`Path::is_file`. -/
def output_from_str (isDir isFile : String → Bool) (s : String) : Output :=
  if s = "-" then .stdout false
  else if isDir s then .directory s false
  else if pathExtension? s = none then .directory s false
  else if isFile s then .file s false
  else .file s false

/-! ## The sorted map laws behind `collectObj` -/

theorem mem_insertKV {rest : List (String × Json)} {k : String} {v : Json} {p : String × Json}
    (h : p ∈ insertKV rest k v) : p = (k, v) ∨ p ∈ rest := by
  induction rest with
  | nil => simpa [insertKV] using h
  | cons q t ih =>
    obtain ⟨k', v'⟩ := q
    rw [insertKV] at h
    by_cases h1 : strLt k k' = true
    · rw [if_pos (by simp [h1])] at h
      rcases List.mem_cons.mp h with h | h
      · exact Or.inl h
      · exact Or.inr h
    · rw [if_neg (by simp [h1])] at h
      by_cases h2 : k = k'
      · rw [if_pos h2] at h
        rcases List.mem_cons.mp h with h | h
        · exact Or.inl h
        · exact Or.inr (List.mem_cons.mpr (Or.inr h))
      · rw [if_neg h2] at h
        rcases List.mem_cons.mp h with h | h
        · exact Or.inr (List.mem_cons.mpr (Or.inl h))
        · rcases ih h with h | h
          · exact Or.inl h
          · exact Or.inr (List.mem_cons.mpr (Or.inr h))

theorem insertKV_sorted {kvs : List (String × Json)} (h : SortedKeys kvs)
    (k : String) (v : Json) : SortedKeys (insertKV kvs k v) := by
  induction kvs with
  | nil => simp [insertKV, SortedKeys]
  | cons q t ih =>
    obtain ⟨k', v'⟩ := q
    rw [SortedKeys, List.pairwise_cons] at h
    obtain ⟨hhead, htail⟩ := h
    rw [insertKV]
    by_cases h1 : strLt k k' = true
    · rw [if_pos (by simp [h1])]
      rw [SortedKeys, List.pairwise_cons]
      refine ⟨?_, List.pairwise_cons.mpr ⟨hhead, htail⟩⟩
      intro p hp
      rcases List.mem_cons.mp hp with hp | hp
      · subst hp; exact h1
      · exact strLt_trans h1 (hhead p hp)
    · rw [if_neg (by simp [h1])]
      by_cases h2 : k = k'
      · rw [if_pos h2]
        subst h2
        exact List.pairwise_cons.mpr ⟨hhead, htail⟩
      · rw [if_neg h2]
        have hk'k : strLt k' k = true := by
          cases hh : strLt k' k
          · exact absurd (strLt_connex (by simpa using h1) hh) h2
          · rfl
        rw [SortedKeys, List.pairwise_cons]
        refine ⟨?_, ih htail⟩
        intro p hp
        rcases mem_insertKV hp with hp | hp
        · subst hp; exact hk'k
        · exact hhead p hp

theorem lookupKV_insertKV (kvs : List (String × Json)) (k : String) (v : Json) (k' : String) :
    lookupKV (insertKV kvs k v) k' = if k' = k then some v else lookupKV kvs k' := by
  induction kvs with
  | nil => simp [insertKV, lookupKV]
  | cons q t ih =>
    obtain ⟨k2, v2⟩ := q
    rw [insertKV]
    by_cases h1 : strLt k k2 = true
    · rw [if_pos (by simp [h1])]
      by_cases hk : k' = k
      · simp [lookupKV, hk]
      · simp [lookupKV, hk]
    · rw [if_neg (by simp [h1])]
      by_cases h2 : k = k2
      · subst h2
        by_cases hk : k' = k
        · simp [lookupKV, hk]
        · simp [lookupKV, hk]
      · rw [if_neg h2]
        by_cases hk : k' = k2
        · have hne : ¬ (k' = k) := by rw [hk]; exact fun e => h2 e.symm
          simp [lookupKV, hk, hne]
          rw [if_neg (fun e => h2 e.symm)]
        · simp only [lookupKV, if_neg hk]
          exact ih

theorem lookupKV_eq_none_of_lt {kvs : List (String × Json)} {k : String}
    (h : ∀ q ∈ kvs, strLt k q.1 = true) : lookupKV kvs k = none := by
  induction kvs with
  | nil => rfl
  | cons q t ih =>
    obtain ⟨k', v'⟩ := q
    have hlt := h (k', v') (by simp)
    have hne : k ≠ k' := by
      rintro rfl
      rw [strLt_irrefl] at hlt
      exact Bool.false_ne_true hlt
    rw [lookupKV, if_neg hne]
    exact ih (fun q hq => h q (by simp [hq]))

/-- Two sorted association lists with the same lookups are equal. -/
theorem sorted_ext : ∀ {a b : List (String × Json)}, SortedKeys a → SortedKeys b →
    (∀ k, lookupKV a k = lookupKV b k) → a = b := by
  intro a
  induction a with
  | nil =>
    intro b _ _ h
    cases b with
    | nil => rfl
    | cons q t =>
      obtain ⟨k, v⟩ := q
      have := h k
      simp [lookupKV] at this
  | cons p as ih =>
    intro b ha hb h
    obtain ⟨k, v⟩ := p
    cases b with
    | nil =>
      have := h k
      simp [lookupKV] at this
    | cons q bs =>
      obtain ⟨k2, v2⟩ := q
      rw [SortedKeys, List.pairwise_cons] at ha hb
      obtain ⟨hahead, hatail⟩ := ha
      obtain ⟨hbhead, hbtail⟩ := hb
      have hkk2 : k = k2 := by
        by_cases h1 : strLt k k2 = true
        · exfalso
          have hnone : lookupKV ((k2, v2) :: bs) k = none :=
            lookupKV_eq_none_of_lt (by
              intro q hq
              rcases List.mem_cons.mp hq with hq | hq
              · subst hq; exact h1
              · exact strLt_trans h1 (hbhead q hq))
          have := h k
          rw [hnone] at this
          simp [lookupKV] at this
        · by_cases h2 : strLt k2 k = true
          · exfalso
            have hnone : lookupKV ((k, v) :: as) k2 = none :=
              lookupKV_eq_none_of_lt (by
                intro q hq
                rcases List.mem_cons.mp hq with hq | hq
                · subst hq; exact h2
                · exact strLt_trans h2 (hahead q hq))
            have := (h k2).symm
            rw [hnone] at this
            simp [lookupKV] at this
          · exact strLt_connex (by simpa using h1) (by simpa using h2)
      subst hkk2
      have hvv2 : v = v2 := by
        have := h k
        simp [lookupKV] at this
        exact this
      subst hvv2
      have htails : ∀ k', lookupKV as k' = lookupKV bs k' := by
        intro k'
        by_cases hk : k' = k
        · subst hk
          rw [lookupKV_eq_none_of_lt hahead, lookupKV_eq_none_of_lt hbhead]
        · have := h k'
          rwa [lookupKV, if_neg hk, lookupKV, if_neg hk] at this
      rw [ih hatail hbtail htails]

theorem lookupKV_append (xs ys : List (String × Json)) (k : String) :
    lookupKV (xs ++ ys) k =
      match lookupKV xs k with
      | some v => some v
      | none => lookupKV ys k := by
  induction xs with
  | nil => simp [lookupKV]
  | cons q t ih =>
    obtain ⟨k', v'⟩ := q
    by_cases hk : k = k'
    · simp [lookupKV, hk]
    · simp only [List.cons_append, lookupKV, if_neg hk]
      exact ih

theorem lookupLast_cons (kv : String × Json) (t : List (String × Json)) (k : String) :
    lookupLast (kv :: t) k =
      match lookupLast t k with
      | some v => some v
      | none => if k = kv.1 then some kv.2 else none := by
  rw [lookupLast, List.reverse_cons, lookupKV_append,
    show lookupKV t.reverse k = lookupLast t k from rfl]
  cases lookupLast t k with
  | some v => rfl
  | none => simp [lookupKV]

/-- Folding inserts over entries realizes last-wins lookup. -/
theorem lookupKV_foldl_insert :
    ∀ (l acc : List (String × Json)) (k : String),
      lookupKV (l.foldl (fun acc kv => insertKV acc kv.1 kv.2) acc) k =
        match lookupLast l k with
        | some v => some v
        | none => lookupKV acc k := by
  intro l
  induction l with
  | nil => intro acc k; rfl
  | cons kv t ih =>
    intro acc k
    rw [List.foldl_cons, ih, lookupLast_cons]
    cases lookupLast t k with
    | some v => rfl
    | none =>
      rw [lookupKV_insertKV]
      by_cases hk : k = kv.1 <;> simp [hk]

theorem foldl_insert_sorted (l : List (String × Json)) :
    ∀ acc, SortedKeys acc →
      SortedKeys (l.foldl (fun acc kv => insertKV acc kv.1 kv.2) acc) := by
  induction l with
  | nil => intro acc h; exact h
  | cons kv t ih =>
    intro acc h
    exact ih _ (insertKV_sorted h kv.1 kv.2)

theorem sortedKeys_nodup {kvs : List (String × Json)} (h : SortedKeys kvs) :
    (kvs.map Prod.fst).Nodup := by
  rw [List.Nodup, List.pairwise_map]
  refine h.imp ?_
  intro a b hab e
  rw [e, strLt_irrefl] at hab
  exact Bool.false_ne_true hab

/-- Permutations with duplicate-free keys do not change lookup. -/
theorem lookupKV_perm {l₁ l₂ : List (String × Json)} (hp : l₁.Perm l₂)
    (hnd : (l₁.map Prod.fst).Nodup) : ∀ k, lookupKV l₁ k = lookupKV l₂ k := by
  induction hp with
  | nil => intro k; rfl
  | cons x h ih =>
    intro k
    obtain ⟨kx, vx⟩ := x
    rw [List.map_cons] at hnd
    by_cases hk : k = kx
    · simp [lookupKV, hk]
    · simp only [lookupKV, if_neg hk]
      exact ih hnd.of_cons k
  | swap x y l =>
    intro k
    obtain ⟨kx, vx⟩ := x
    obtain ⟨ky, vy⟩ := y
    rw [List.map_cons, List.map_cons] at hnd
    obtain ⟨hky, _⟩ := List.nodup_cons.mp hnd
    have hxy : ky ≠ kx := fun e => hky (by rw [e]; exact List.mem_cons_self _ _)
    by_cases h1 : k = ky
    · have h2 : ¬ (k = kx) := by rw [h1]; exact hxy
      simp [lookupKV, h1, h2, hxy]
    · by_cases h2 : k = kx
      · have hne : ¬ (kx = ky) := fun e => hxy e.symm
        simp [lookupKV, h1, h2, hne]
      · simp [lookupKV, h1, h2]
  | trans h1 h2 ih1 ih2 =>
    intro k
    have hnd2 := ((h1.map Prod.fst).nodup_iff).mp hnd
    rw [ih1 hnd k, ih2 hnd2 k]

/-- Filtering by a key predicate restricts lookup to matching keys. -/
theorem lookupKV_filter (m : Matcher) :
    ∀ (l : List (String × Json)) (k : String),
      lookupKV (l.filter (fun kv => m kv.1)) k =
        if m k then lookupKV l k else none := by
  intro l
  induction l with
  | nil =>
    intro k
    by_cases hm : m k = true <;> simp [lookupKV, hm]
  | cons q t ih =>
    intro k
    obtain ⟨k', v'⟩ := q
    by_cases hmk' : m k' = true
    · rw [List.filter_cons_of_pos (by simpa using hmk')]
      by_cases hk : k = k'
      · subst hk
        simp [lookupKV, hmk']
      · simp only [lookupKV, if_neg hk]
        exact ih k
    · rw [List.filter_cons_of_neg (by simpa using hmk')]
      rw [ih k]
      by_cases hk : k = k'
      · subst hk
        simp [lookupKV, hmk']
      · simp [lookupKV, hk]

theorem lookupLast_filter (m : Matcher) (l : List (String × Json)) (k : String) :
    lookupLast (l.filter (fun kv => m kv.1)) k = if m k then lookupLast l k else none := by
  rw [lookupLast,
    show (List.filter (fun kv => m kv.1) l).reverse =
      List.filter (fun kv => m kv.1) l.reverse from (List.filter_reverse _ _).symm,
    lookupKV_filter]
  rfl

/-! ## Helper lemmas for the bundle abort and the directory round trip -/

theorem read_directory_cons_json {name content : String} {rest : List (String × String)}
    (hext : pathExtension? name = some "json") :
    read_directory_to_output ((name, content) :: rest) =
      match jsonFromStr content with
      | .error e => ([], some e)
      | .ok json =>
        ((json :: (read_directory_to_output rest).1), (read_directory_to_output rest).2) := by
  rw [read_directory_to_output, if_pos hext]

theorem read_directory_cons_other {name content : String} {rest : List (String × String)}
    (hext : ¬ pathExtension? name = some "json") :
    read_directory_to_output ((name, content) :: rest) = read_directory_to_output rest := by
  rw [read_directory_to_output, if_neg hext]

/-- `fsWrite` to a fresh name appends. -/
theorem fsWrite_fresh {fs : List (String × Json)} {name : String} (v : Json)
    (h : name ∉ fs.map Prod.fst) : fsWrite fs name v = fs ++ [(name, v)] := by
  rw [fsWrite, if_neg (by simpa using h)]

/-- Appending `.json` to distinct names keeps them distinct. -/
theorem append_json_inj {a b : String} (h : a ++ ".json" = b ++ ".json") : a = b := by
  have hd : (a ++ ".json").data = (b ++ ".json").data := by rw [h]
  rw [String.data_append, String.data_append] at hd
  have := List.append_cancel_right hd
  cases a; cases b
  exact congrArg String.mk this

/-- Writing entries with duplicate-free names into fresh space appends the
renamed entries in write order. -/
theorem write_entries_dir_fresh :
    ∀ (E : List (String × Json)) (fs : List (String × Json)),
      (E.map Prod.fst).Nodup →
      (∀ kv ∈ E, (kv.1 ++ ".json") ∉ fs.map Prod.fst) →
      write_entries_dir fs E = fs ++ E.map (fun kv => (kv.1 ++ ".json", kv.2)) := by
  intro E
  induction E with
  | nil => intro fs _ _; simp [write_entries_dir]
  | cons kv t ih =>
    intro fs hnd hfresh
    rw [write_entries_dir, List.foldl_cons,
      fsWrite_fresh kv.2 (hfresh kv (by simp))]
    rw [List.map_cons] at hnd
    have step := ih (fs ++ [(kv.1 ++ ".json", kv.2)]) hnd.of_cons (by
      intro q hq
      rw [List.map_append]
      intro hmem
      rcases List.mem_append.mp hmem with hmem | hmem
      · exact hfresh q (by simp [hq]) hmem
      · simp at hmem
        have : q.1 = kv.1 := append_json_inj hmem
        have hne : q.1 ≠ kv.1 := by
          have hnotin := (List.nodup_cons.mp hnd).1
          intro e
          exact hnotin (e ▸ List.mem_map_of_mem Prod.fst hq)
        exact hne this)
    rw [show write_entries_dir (fs ++ [(kv.1 ++ ".json", kv.2)]) t =
      List.foldl (fun acc kv => fsWrite acc (kv.1 ++ ".json") kv.2)
        (fs ++ [(kv.1 ++ ".json", kv.2)]) t from rfl] at step
    rw [step]
    simp

/-- All characters pass `takeWhile` when the predicate holds everywhere. -/
theorem takeWhile_all {p : Char → Bool} :
    ∀ {l : List Char}, (∀ c ∈ l, p c = true) → l.takeWhile p = l := by
  intro l
  induction l with
  | nil => intro _; rfl
  | cons c t ih =>
    intro h
    rw [List.takeWhile_cons, if_pos (h c (by simp)), ih (fun x hx => h x (by simp [hx]))]

/-- Unfold `fileStem` through a computed last component. -/
theorem fileStem_eq (s : String) (c : Char) (rest : List Char)
    (h : lastComponent s = c :: rest) :
    fileStem s =
      if rest.contains '.' then
        String.mk (c :: ((rest.reverse.dropWhile (fun c => !(c = '.'))).drop 1).reverse)
      else String.mk (c :: rest) := by
  rw [fileStem, h]

/-- The file stem of `name.json` is `name`, for filename-safe names. -/
theorem fileStem_append_json {n : String} (hne : n ≠ "") (hslash : '/' ∉ n.data) :
    fileStem (n ++ ".json") = n := by
  obtain ⟨c, r, hcr⟩ : ∃ c r, n.data = c :: r := by
    cases hd : n.data with
    | nil =>
      exfalso
      apply hne
      have hmk : n = String.mk n.data := by cases n; rfl
      rw [hmk, hd]
    | cons c r => exact ⟨c, r, rfl⟩
  have hdata : (n ++ ".json").data = c :: (r ++ ['.', 'j', 's', 'o', 'n']) := by
    rw [String.data_append, hcr]
    rfl
  have hnoslash : ∀ x ∈ c :: (r ++ ['.', 'j', 's', 'o', 'n']), x ≠ '/' := by
    intro x hx
    rcases List.mem_cons.mp hx with hx | hx
    · subst hx
      intro e
      refine hslash ?_
      rw [hcr, ← e]
      exact List.mem_cons_self _ _
    · rcases List.mem_append.mp hx with hx | hx
      · intro e
        subst e
        exact hslash (by rw [hcr]; exact List.mem_cons_of_mem _ hx)
      · intro e
        subst e
        simp at hx
  have hlast : lastComponent (n ++ ".json") = c :: (r ++ ['.', 'j', 's', 'o', 'n']) := by
    rw [lastComponent, hdata]
    rw [takeWhile_all (by
      intro x hx
      rw [List.mem_reverse] at hx
      simpa using hnoslash x hx)]
    exact List.reverse_reverse _
  rw [fileStem_eq _ c _ hlast, if_pos (by simp)]
  have hrev : (r ++ ['.', 'j', 's', 'o', 'n']).reverse =
      'n' :: 'o' :: 's' :: 'j' :: '.' :: r.reverse := by
    simp
  rw [hrev,
    show List.dropWhile (fun c => !(c = '.'))
      ('n' :: 'o' :: 's' :: 'j' :: '.' :: r.reverse) = '.' :: r.reverse from rfl,
    show ('.' :: r.reverse).drop 1 = r.reverse from rfl, List.reverse_reverse, ← hcr]

/-! ## Claim theorems -/

/-- C1 counterexample: the object `{"a":"\""}` is not a top-level string, yet
escaping and unescaping it yields null, because the unconditional `\"` → `"`
rewrite in `JsonField::unescape` corrupts the serialized quote. -/
theorem C1_roundtrip_counterexample :
    Json.isString (Json.obj [("a", Json.str "\"")]) = false ∧
    unescapeValue (escapeValue (Json.obj [("a", Json.str "\"")])) = Json.null ∧
    Json.null ≠ Json.obj [("a", Json.str "\"")] := by
  refine ⟨rfl, rfl, ?_⟩
  intro h
  exact Json.noConfusion h

/-- C1 (amended): escape then unescape is the identity on every value whose
top level is not a string and whose strings (keys included) contain no quote
character and do not end in a backslash — exactly the values whose
serialization contains no `\"` pattern, so the `\"` → `"` rewrite of
`JsonField::unescape` finds nothing to corrupt. -/
theorem C1_escape_unescape_roundtrip (v : Json) (hs : v.isString = false)
    (hwf : Json.wf v = true) : unescapeValue (escapeValue v) = v := by
  have hesc : escapeValue v = .str (String.mk (serVal v)) := by
    cases v with
    | str s => simp [Json.isString] at hs
    | null => rfl
    | bool b => rfl
    | num i => rfl
    | arr xs => rfl
    | obj kvs => rfl
  rw [hesc]
  show (match jsonFromStr (String.mk (replaceEscQuote (String.mk (serVal v)).data)) with
    | Except.ok w => w
    | Except.error _ => Json.null) = v
  rw [show (String.mk (serVal v)).data = serVal v from rfl,
    replaceEscQuote_of_noBQ (noBQ_serVal v hwf), jsonFromStr_serVal v hwf]

/-- C1 witness: the round trip at a concrete object whose strings include an
interior backslash and a newline. -/
theorem C1_witness :
    unescapeValue (escapeValue
      (Json.obj [("a", Json.num 1), ("b", Json.arr [Json.str "x\\y\nz"])])) =
      Json.obj [("a", Json.num 1), ("b", Json.arr [Json.str "x\\y\nz"])] :=
  C1_escape_unescape_roundtrip _ rfl rfl

/-- C4: splitting a (serde-canonical, key-sorted) object with no filter and
merging the result with no filter reconstructs the object, whatever iteration
order the `HashMap` hands to `split`. -/
theorem C4_split_merge_roundtrip (kvs : List (String × Json)) (hs : SortedKeys kvs)
    (es : List (String × Json)) (hperm : es.Perm kvs) :
    merge (split es none) none = Json.obj kvs := by
  show collectObj es = Json.obj kvs
  rw [collectObj]
  congr 1
  apply sorted_ext (foldl_insert_sorted es [] (by simp [SortedKeys])) hs
  intro k
  rw [lookupKV_foldl_insert]
  have hnodup : (kvs.map Prod.fst).Nodup := sortedKeys_nodup hs
  have hnodup_rev : (es.reverse.map Prod.fst).Nodup := by
    rw [List.map_reverse, List.nodup_reverse]
    exact ((hperm.map Prod.fst).nodup_iff).mpr hnodup
  have hperm_rev : es.reverse.Perm kvs := (List.reverse_perm es).trans hperm
  have hlook := lookupKV_perm hperm_rev hnodup_rev k
  rw [show lookupLast es k = lookupKV es.reverse k from rfl, hlook]
  cases lookupKV kvs k <;> rfl

/-- C4 witness: the round trip at a two-field object handed over in swapped
order. -/
theorem C4_witness :
    merge (split [("b", Json.null), ("a", Json.num 1)] none) none =
      Json.obj [("a", Json.num 1), ("b", Json.null)] :=
  C4_split_merge_roundtrip [("a", Json.num 1), ("b", Json.null)]
    (by
      refine List.Pairwise.cons ?_ (List.Pairwise.cons (by simp) List.Pairwise.nil)
      intro b hb
      simp at hb
      subst hb
      rfl)
    [("b", Json.null), ("a", Json.num 1)]
    (List.Perm.swap ("a", Json.num 1) ("b", Json.null) [])

/-- C6: the object `merge` builds contains exactly the matching entries — a
key's binding is the last matching entry with that name, no filter keeps
everything. -/
theorem C6_merge_filter (entries : List (String × Json)) (m : Matcher) (k : String) :
    ((merge entries (some m)).objLookup k =
      if m k then lookupLast entries k else none) ∧
    ((merge entries none).objLookup k = lookupLast entries k) := by
  constructor
  · rw [show (merge entries (some m)).objLookup k =
      lookupKV ((entries.filter (fun kv => m kv.1)).foldl
        (fun acc kv => insertKV acc kv.1 kv.2) []) k from rfl,
      lookupKV_foldl_insert, lookupLast_filter]
    by_cases hm : m k = true
    · simp only [if_pos hm]
      cases lookupLast entries k <;> rfl
    · simp only [if_neg hm]
      rfl
  · rw [show (merge entries none).objLookup k =
      lookupKV (entries.foldl (fun acc kv => insertKV acc kv.1 kv.2) []) k from rfl,
      lookupKV_foldl_insert]
    cases lookupLast entries k <;> rfl

/-- C2 counterexample: with paths `a,b` against `{"a":5,"b":"x"}`, the code
stops at the first path that resolves at all (`a`, a number) and names the row
`""`, while the claim's first-string-valued probe names it `"x"`. -/
theorem C2_name_probe_counterexample :
    name_entry [dots_to_slashes "a", dots_to_slashes "b"] none 0
      (Json.obj [("a", Json.num 5), ("b", Json.str "x")]) = "" ∧
    name_probe_spec [dots_to_slashes "a", dots_to_slashes "b"] 0
      (Json.obj [("a", Json.num 5), ("b", Json.str "x")]) = "x" ∧
    ("" : String) ≠ "x" :=
  ⟨rfl, rfl, by decide⟩

/-- C2 (amended): `name_entry` probes the paths in order and takes the first
path whose value **resolves at all**: if that value is a string the name is its
content (otherwise the empty string); only when no path resolves does the name
fall back to `object-NNNNNN` for the row's counter. -/
theorem C2_name_entry_first_resolving (name_list : List String) (i : Nat) (j : Json) :
    ((∀ p ∈ name_list, j.pointer p = none) →
      name_entry name_list none i j = defaultName i) ∧
    (∀ pre p post v, name_list = pre ++ p :: post →
      (∀ q ∈ pre, j.pointer q = none) → j.pointer p = some v →
      name_entry name_list none i j = v.asStr.getD "") := by
  constructor
  · intro hall
    rw [name_entry, List.findSome?_eq_none_iff.mpr hall]
  · intro pre p post v heq hpre hp
    subst heq
    have hfind : (pre ++ p :: post).findSome? (fun name => j.pointer name) = some v := by
      induction pre with
      | nil =>
        rw [List.nil_append, List.findSome?_cons, hp]
      | cons q pre' ih =>
        rw [List.cons_append, List.findSome?_cons, hpre q (by simp)]
        exact ih (fun x hx => hpre x (by simp [hx]))
    rw [name_entry, hfind]

/-- C2 witness: no path resolves gives the counter name; a first path that
resolves to a string gives that string. -/
theorem C2_witness :
    name_entry [dots_to_slashes "name"] none 3 (Json.obj []) = defaultName 3 ∧
    name_entry [dots_to_slashes "name"] none 0
      (Json.obj [("name", Json.str "alpha")]) = "alpha" := by
  constructor
  · refine (C2_name_entry_first_resolving [dots_to_slashes "name"] 3 (Json.obj [])).1 ?_
    intro p hp
    simp at hp
    subst hp
    rfl
  · have h := (C2_name_entry_first_resolving [dots_to_slashes "name"] 0
      (Json.obj [("name", Json.str "alpha")])).2 [] (dots_to_slashes "name") []
      (Json.str "alpha") rfl (by simp) rfl
    simpa [Json.asStr] using h

/-- C3 counterexample: one non-JSON `.json` file aborts the bundle run — no
error is swallowed, nothing after the bad file is appended, contradicting the
log-and-continue reading. -/
theorem C3_bundle_abort_counterexample :
    read_directory_to_output [("bad.json", "oops"), ("good.json", "{}")] =
      ([], some JErr.other) ∧
    ([] : List Json) ≠ [Json.obj []] := by
  refine ⟨rfl, ?_⟩
  simp

theorem read_directory_cons_ok {name content : String} {j : Json}
    (hext : pathExtension? name = some "json") (hok : jsonFromStr content = .ok j)
    (rest : List (String × String)) :
    read_directory_to_output ((name, content) :: rest) =
      (j :: (read_directory_to_output rest).1, (read_directory_to_output rest).2) := by
  rw [read_directory_to_output, if_pos hext, hok]

theorem read_directory_cons_err {name content : String} {e : JErr}
    (hext : pathExtension? name = some "json") (herr : jsonFromStr content = .error e)
    (rest : List (String × String)) :
    read_directory_to_output ((name, content) :: rest) = ([], some e) := by
  rw [read_directory_to_output, if_pos hext, herr]

/-- C3 (amended): a parse failure in one `.json` file makes `bundle` abort:
the error propagates, and no later file is read or appended — the output is
exactly the documents appended before the bad file, plus the error. -/
theorem C3_bundle_abort (pre : List (String × String)) (name content : String)
    (rest : List (String × String)) (e : JErr)
    (hpre : (read_directory_to_output pre).2 = none)
    (hext : pathExtension? name = some "json")
    (herr : jsonFromStr content = .error e) :
    read_directory_to_output (pre ++ (name, content) :: rest) =
      ((read_directory_to_output pre).1, some e) := by
  induction pre with
  | nil =>
    rw [List.nil_append, read_directory_cons_err hext herr]
    rfl
  | cons f pre' ih =>
    obtain ⟨n1, c1⟩ := f
    by_cases hext1 : pathExtension? n1 = some "json"
    · cases hc1 : jsonFromStr c1 with
      | error e1 =>
        rw [read_directory_cons_err hext1 hc1] at hpre
        simp at hpre
      | ok j =>
        rw [read_directory_cons_ok hext1 hc1] at hpre
        have hpre' : (read_directory_to_output pre').2 = none := hpre
        rw [List.cons_append, read_directory_cons_ok hext1 hc1,
          ih hpre', read_directory_cons_ok hext1 hc1]
    · rw [read_directory_cons_other hext1] at hpre
      rw [List.cons_append, read_directory_cons_other hext1, ih hpre,
        read_directory_cons_other hext1]

/-- C3 witness: the abort after one good file. -/
theorem C3_witness :
    read_directory_to_output
      [("a.json", "{}"), ("bad.json", "oops"), ("c.json", "[1]")] =
      ([Json.obj []], some JErr.other) := by
  have h := C3_bundle_abort [("a.json", "{}")] "bad.json" "oops" [("c.json", "[1]")]
    JErr.other rfl rfl rfl
  exact h

/-- C5: inside the unbundle loop an end-of-input parse failure ends the loop
(nothing more is written), any other parse failure skips just that line and
continues with the next counter value, and `unbundle` returns success either
way. -/
theorem C5_unbundle_parse_failures (nl : List String) (tf : Option String)
    (uf : Option (List String)) (i : Nat) (line : String) (rest : List String) :
    (jsonFromStr line = .error .eof → unbundleFrom nl tf uf i (line :: rest) = []) ∧
    (jsonFromStr line = .error .other →
      unbundleFrom nl tf uf i (line :: rest) = unbundleFrom nl tf uf (i + 1) rest) ∧
    (∀ name lines, ∃ entries, unbundle name tf uf lines = .ok entries) := by
  refine ⟨?_, ?_, fun name lines => ⟨_, rfl⟩⟩
  · intro h
    rw [unbundleFrom, h]
  · intro h
    rw [unbundleFrom, h]

/-- C5 witness: an empty buffer ends the loop; a malformed line is skipped. -/
theorem C5_witness :
    unbundleFrom [] none none 0 ["", "{}"] = [] ∧
    unbundleFrom [] none none 0 ["x", "{}"] = unbundleFrom [] none none 1 ["{}"] := by
  constructor
  · exact (C5_unbundle_parse_failures [] none none 0 "" ["{}"]).1 rfl
  · exact (C5_unbundle_parse_failures [] none none 0 "x" ["{}"]).2.1 rfl

/-- C10: a blank line (empty or a lone newline) parses as an end-of-input
failure, so the loop stops there — the output is the same as if the stream had
ended at the blank line, rows after it are never processed — and `unbundle`
still returns success. -/
theorem C10_blank_line_stops (nl : List String) (tf : Option String)
    (uf : Option (List String)) (line : String) (hblank : line = "" ∨ line = "\n") :
    jsonFromStr line = .error .eof ∧
    (∀ (pre : List String) (i : Nat) (rest : List String),
      (∀ l ∈ pre, ∃ j, jsonFromStr l = .ok j) →
      unbundleFrom nl tf uf i (pre ++ line :: rest) =
        unbundleFrom nl tf uf i (pre ++ [line])) ∧
    (∀ name rest, ∃ es, unbundle name tf uf (line :: rest) = .ok es) := by
  have heof : jsonFromStr line = .error .eof := by
    rcases hblank with rfl | rfl <;> rfl
  refine ⟨heof, ?_, fun name rest => ⟨_, rfl⟩⟩
  intro pre
  induction pre with
  | nil =>
    intro i rest _
    rw [List.nil_append, List.nil_append, unbundleFrom, heof, unbundleFrom, heof]
  | cons l pre' ih =>
    intro i rest hok
    obtain ⟨j, hj⟩ := hok l (by simp)
    rw [List.cons_append, List.cons_append, unbundleFrom, hj, unbundleFrom, hj,
      ih (i + 1) rest (fun x hx => hok x (by simp [hx]))]

/-- C10 witness: a newline-only line after one good row stops the loop there,
regardless of the well-formed row that follows. -/
theorem C10_witness :
    jsonFromStr "\n" = .error .eof ∧
    unbundleFrom [] none none 0 (["{}"] ++ "\n" :: ["[1]"]) =
      unbundleFrom [] none none 0 (["{}"] ++ ["\n"]) := by
  have h := C10_blank_line_stops [] none none "\n" (Or.inr rfl)
  refine ⟨h.1, h.2.1 ["{}"] 0 ["[1]"] ?_⟩
  intro l hl
  simp at hl
  subst hl
  exact ⟨Json.obj [], rfl⟩

/-- C7: `bundle` fails fast — with a directory sink, or a file or stdin
source, it returns the descriptive unsupported-operation error whatever the
filesystem contains, reading and writing nothing. -/
theorem C7_bundle_fail_fast (listing : String → List (String × String))
    (p q : String) (b b' : Bool) (inp : Input) :
    bundle inp (.directory q b) listing = .error "Cannot bundle to a directory" ∧
    bundle (.file p) (.stdout b') listing =
      .error "Cannot bundle from a single file, multiple objects in a file is invalid JSON!" ∧
    bundle (.file p) (.file q b') listing =
      .error "Cannot bundle from a single file, multiple objects in a file is invalid JSON!" ∧
    bundle .stdin (.stdout b') listing =
      .error "Why bundle from stdin? Just redirect output to a file!" ∧
    bundle .stdin (.file q b') listing =
      .error "Why bundle from stdin? Just redirect output to a file!" := by
  refine ⟨?_, rfl, rfl, rfl, rfl⟩
  cases inp <;> rfl

/-- C8: writing an entry set with unique filename-safe names to a fresh
directory sink and re-reading the directory yields the same set, whatever
order rayon wrote the entries in. -/
theorem C8_directory_roundtrip (E : List (String × Json))
    (hnd : (E.map Prod.fst).Nodup)
    (hsafe : ∀ n ∈ E.map Prod.fst, n ≠ "" ∧ '/' ∉ n.data)
    (E' : List (String × Json)) (hperm : E'.Perm E) :
    (read_entries_from_directory (write_entries_dir [] E') false).Perm E := by
  have hndE' : (E'.map Prod.fst).Nodup := ((hperm.map Prod.fst).nodup_iff).mpr hnd
  rw [write_entries_dir_fresh E' [] hndE' (by simp), List.nil_append]
  show ((E'.map (fun kv => (kv.1 ++ ".json", kv.2))).map
    (fun fv => (fileStem fv.1, fv.2))).Perm E
  rw [List.map_map]
  have hid : E'.map ((fun fv => (fileStem fv.1, fv.2)) ∘
      (fun kv => (kv.1 ++ ".json", kv.2))) = E' := by
    have hcongr : ∀ kv ∈ E',
        ((fun fv => (fileStem fv.1, fv.2)) ∘ (fun kv => (kv.1 ++ ".json", kv.2))) kv =
          id kv := by
      intro kv hkv
      have hmem : kv.1 ∈ E.map Prod.fst :=
        (hperm.map Prod.fst).mem_iff.mp (List.mem_map_of_mem Prod.fst hkv)
      obtain ⟨hne, hslash⟩ := hsafe kv.1 hmem
      show (fileStem (kv.1 ++ ".json"), kv.2) = kv
      rw [fileStem_append_json hne hslash]
    rw [List.map_congr_left hcongr, List.map_id]
  rw [hid]
  exact hperm

/-- C8 witness: a two-entry set written in swapped order reads back as the
same set. -/
theorem C8_witness :
    (read_entries_from_directory
      (write_entries_dir [] [("bravo", Json.num 2), ("alpha", Json.num 1)]) false).Perm
      [("alpha", Json.num 1), ("bravo", Json.num 2)] := by
  refine C8_directory_roundtrip [("alpha", Json.num 1), ("bravo", Json.num 2)]
    (by decide) ?_ [("bravo", Json.num 2), ("alpha", Json.num 1)]
    (List.Perm.swap ("alpha", Json.num 1) ("bravo", Json.num 2) [])
  intro n hn
  simp at hn
  rcases hn with rfl | rfl
  · exact ⟨by decide, by decide⟩
  · exact ⟨by decide, by decide⟩

/-- C9 counterexample: a path that is not an existing directory but has no
extension is mapped to a Directory sink, not to a File sink as the claim says. -/
theorem C9_fromstr_counterexample :
    output_from_str (fun _ => false) (fun _ => false) "newdir" =
      .directory "newdir" false ∧
    Output.directory "newdir" false ≠ Output.file "newdir" false := by
  refine ⟨rfl, ?_⟩
  intro h
  exact Output.noConfusion h

/-- C9 (amended): `"-"` maps to the standard-output sink; an existing
directory, **or any other path without an extension**, maps to a Directory
sink; only a path with an extension maps to a File sink (whose backing file is
opened with `create(true)`, so it is created when absent). -/
theorem C9_output_from_str_cases (isDir isFile : String → Bool) (s : String) :
    (s = "-" → output_from_str isDir isFile s = .stdout false) ∧
    (s ≠ "-" → isDir s = true → output_from_str isDir isFile s = .directory s false) ∧
    (s ≠ "-" → isDir s = false → pathExtension? s = none →
      output_from_str isDir isFile s = .directory s false) ∧
    (s ≠ "-" → isDir s = false → pathExtension? s ≠ none →
      output_from_str isDir isFile s = .file s false) := by
  refine ⟨?_, ?_, ?_, ?_⟩
  · intro h
    rw [output_from_str, if_pos h]
  · intro h hd
    rw [output_from_str, if_neg h, if_pos hd]
  · intro h hd hx
    rw [output_from_str, if_neg h, if_neg (by simp [hd]), if_pos hx]
  · intro h hd hx
    rw [output_from_str, if_neg h, if_neg (by simp [hd]), if_neg hx]
    by_cases hf : isFile s = true
    · rw [if_pos hf]
    · rw [if_neg (by simp [hf])]

/-- C9 witness: the three constructor cases at concrete inputs. -/
theorem C9_witness :
    output_from_str (fun _ => false) (fun _ => false) "-" = .stdout false ∧
    output_from_str (fun _ => true) (fun _ => false) "d" = .directory "d" false ∧
    output_from_str (fun _ => false) (fun _ => false) "out.ndjson" =
      .file "out.ndjson" false := by
  refine ⟨?_, ?_, ?_⟩
  · exact (C9_output_from_str_cases _ _ "-").1 rfl
  · exact (C9_output_from_str_cases _ _ "d").2.1 (by decide) rfl
  · exact (C9_output_from_str_cases _ _ "out.ndjson").2.2.2 (by decide) rfl (by decide)
